import Mathlib

/-!
Shallow embedding of the esp-mcp server (src/main.py): the structured
text-analysis handlers (build-log classifier, memory-map analyzer,
sdkconfig differ, device-log formatter, dependency-graph analyzer) and the
request dispatch / tool-execution protocol engine, together with proofs
about the claims of the specification.

File handlers in the source first read the file into a list of lines; the
embedding models each handler from that point on, as a pure function of the
line list (file-existence errors are outside the modelled core).
-/

namespace EspMcp

/-! ## Python string primitives -/

/-- Characters treated as whitespace by Python `str.strip()` / `str.split()`
(ASCII portion; the source only feeds ASCII whitespace to these). -/
def isPySpace (c : Char) : Bool :=
  c = ' ' || c = '\t' || c = '\n' || c = '\r' || c = '\x0b' || c = '\x0c'

/-- Python `str.strip()` on a character list. -/
def pyStripL (cs : List Char) : List Char :=
  ((cs.dropWhile isPySpace).reverse.dropWhile isPySpace).reverse

/-- Python `str.strip()`. -/
def pyStrip (s : String) : String :=
  (pyStripL s.data).asString

/-- Python `str.strip('"')`: remove all leading and trailing `"` characters. -/
def pyStripQuotes (s : String) : String :=
  (((s.data.dropWhile (· = '"')).reverse.dropWhile (· = '"')).reverse).asString

/-- Substring test on character lists (`pat in hay` for Python strings). -/
def subTok : List Char → List Char → Bool
  | [], pat => pat.isEmpty
  | h :: t, pat => pat.isPrefixOf (h :: t) || subTok t pat

/-- Python `pat in s` for strings. -/
def strContains (s pat : String) : Bool :=
  subTok s.data pat.data

/-- Python `str.lower()` (ASCII case mapping; the classifier keywords are
all ASCII). -/
def pyLower (s : String) : String :=
  (s.data.map Char.toLower).asString

/-- Python `str.upper()` (ASCII case mapping). -/
def pyUpper (s : String) : String :=
  (s.data.map Char.toUpper).asString

/-- Python `str.startswith(pat)`. -/
def pyStartsWith (s pat : String) : Bool :=
  pat.data.isPrefixOf s.data

/-- Helper for `str.split()`: walk the characters with the current word
accumulated in reverse. -/
def pyWordsAux (cur : List Char) : List Char → List (List Char)
  | [] => if cur.isEmpty then [] else [cur.reverse]
  | c :: cs =>
    if isPySpace c then
      if cur.isEmpty then pyWordsAux [] cs
      else cur.reverse :: pyWordsAux [] cs
    else pyWordsAux (c :: cur) cs

/-- Python `str.split()` with no separator: split on whitespace runs,
dropping empty fields. -/
def pyWordsL (cs : List Char) : List (List Char) :=
  pyWordsAux [] cs

/-- Python `str.split()`. -/
def pySplitWS (s : String) : List String :=
  (pyWordsL s.data).map List.asString

/-- Python `s.split(sep, 1)` restricted to the case the source uses
(`line.split('=', 1)` after checking `'=' in line`): split at the first
occurrence of the character. -/
def pySplitFirst (s : String) (sep : Char) : String × String :=
  ((s.data.takeWhile (· ≠ sep)).asString,
   ((s.data.dropWhile (· ≠ sep)).drop 1).asString)

/-- Replace every occurrence of `pat` (Python `str.replace`,
left-to-right, non-overlapping).  The `fuel` counter makes the recursion
structural; every step consumes at least one character, so
`fuel = length` never runs out. -/
def replaceAllGo (pat repl : List Char) : Nat → List Char → List Char
  | _, [] => []
  | 0, cs => cs
  | fuel + 1, c :: cs =>
    if pat ≠ [] ∧ pat.isPrefixOf (c :: cs) then
      repl ++ replaceAllGo pat repl fuel ((c :: cs).drop pat.length)
    else
      c :: replaceAllGo pat repl fuel cs

def replaceAllL (pat repl cs : List Char) : List Char :=
  replaceAllGo pat repl cs.length cs

/-- Python `s.replace(pat, repl)`. -/
def pyReplace (s pat repl : String) : String :=
  (replaceAllL pat.data repl.data s.data).asString

/-! ## Python integer parsing (`int(s)` and `int(s, 16)`) -/

/-- Digit value for a given base (10 or 16), `none` for non-digits. -/
def digitVal (base : Nat) (c : Char) : Option Nat :=
  if '0' ≤ c ∧ c ≤ '9' then
    if c.toNat - '0'.toNat < base then some (c.toNat - '0'.toNat) else none
  else if base = 16 ∧ 'a' ≤ c ∧ c ≤ 'f' then some (c.toNat - 'a'.toNat + 10)
  else if base = 16 ∧ 'A' ≤ c ∧ c ≤ 'F' then some (c.toNat - 'A'.toNat + 10)
  else none

/-- Digit sequence continuation: single underscores are allowed between
digits (Python numeric-literal grammar). -/
def digitsGo (base acc : Nat) : List Char → Option Nat
  | [] => some acc
  | '_' :: rest =>
    match rest with
    | [] => none
    | d :: rest2 =>
      match digitVal base d with
      | some v => digitsGo base (acc * base + v) rest2
      | none => none
  | c :: rest =>
    match digitVal base c with
    | some v => digitsGo base (acc * base + v) rest
    | none => none

/-- A nonempty digit sequence (first character must be a digit). -/
def digitsSeq (base : Nat) : List Char → Option Nat
  | [] => none
  | c :: rest =>
    match digitVal base c with
    | some v => digitsGo base v rest
    | none => none

/-- Hexadecimal body after the optional sign: optional `0x`/`0X` prefix
(an underscore may directly follow it), then digits. -/
def hexBody : List Char → Option Nat
  | '0' :: 'x' :: rest => hexAfterPfx rest
  | '0' :: 'X' :: rest => hexAfterPfx rest
  | cs => digitsSeq 16 cs
where
  hexAfterPfx : List Char → Option Nat
    | '_' :: rest => digitsSeq 16 rest
    | cs => digitsSeq 16 cs

/-- Python `int(s, 16)`: strip whitespace, optional sign, optional `0x`
prefix, hex digits; `none` models the `ValueError`. -/
def pyIntHex (s : String) : Option Int :=
  match pyStripL s.data with
  | '-' :: rest => (hexBody rest).map (fun n => -(n : Int))
  | '+' :: rest => (hexBody rest).map (fun n => (n : Int))
  | cs => (hexBody cs).map (fun n => (n : Int))

/-- Python `int(s)` (base 10): strip whitespace, optional sign, decimal
digits; `none` models the `ValueError`. -/
def pyIntDec (s : String) : Option Int :=
  match pyStripL s.data with
  | '-' :: rest => (digitsSeq 10 rest).map (fun n => -(n : Int))
  | '+' :: rest => (digitsSeq 10 rest).map (fun n => (n : Int))
  | cs => (digitsSeq 10 cs).map (fun n => (n : Int))

/-! ## Build-log classifier (`handle_parse_build_log`) -/

def errorKeywords : List String :=
  ["error:", "error ", "failed", "undefined reference", "multiple definition"]

def warningKeywords : List String :=
  ["warning:", "warning ", "deprecated", "unused"]

def infoKeywords : List String :=
  ["building", "linking", "generating", "project build complete"]

inductive LineClass where
  | err | warn | info | other
deriving DecidableEq, Repr

/-- The `if`/`elif` keyword classification of one build-log line
(performed on the lower-cased line, first match wins). -/
def classifyLine (line : String) : LineClass :=
  let l := pyLower line
  if errorKeywords.any (fun k => strContains l k) then .err
  else if warningKeywords.any (fun k => strContains l k) then .warn
  else if infoKeywords.any (fun k => strContains l k) then .info
  else .other

structure LogMessage where
  line : Nat
  message : String
  type : String
deriving DecidableEq, Repr

/-- The classification loop of `handle_parse_build_log`: walk the
1-indexed lines, appending each to at most one of the three buckets. -/
def classifyLines (i : Nat) : List String →
    List LogMessage × List LogMessage × List LogMessage
  | [] => ([], [], [])
  | line :: rest =>
    let (es, ws, is_) := classifyLines (i + 1) rest
    match classifyLine line with
    | .err => (⟨i, pyStrip line, "error"⟩ :: es, ws, is_)
    | .warn => (es, ⟨i, pyStrip line, "warning"⟩ :: ws, is_)
    | .info => (es, ws, ⟨i, pyStrip line, "info"⟩ :: is_)
    | .other => (es, ws, is_)

/-- Suggestion generation: scan error messages for sub-string categories. -/
def buildSuggestions (errors : List LogMessage) : List String :=
  let errorTypes := errors.foldl (fun acc err =>
    let msg := pyLower err.message
    if strContains msg "undefined reference" then acc ∪ ["linking_error"]
    else if strContains msg "multiple definition" then acc ∪ ["linking_error"]
    else if strContains msg "syntax error" then acc ∪ ["syntax_error"]
    else if strContains msg "no such file" then acc ∪ ["file_not_found"]
    else acc) []
  (if "linking_error" ∈ errorTypes then
    ["Check for missing source files in CMakeLists.txt",
     "Ensure all required libraries are linked"] else []) ++
  (if "syntax_error" ∈ errorTypes then
    ["Review syntax errors in source files"] else []) ++
  (if "file_not_found" ∈ errorTypes then
    ["Verify all file paths are correct"] else [])

structure BuildLogResult where
  totalLines : Nat
  errorsCount : Nat
  warningsCount : Nat
  infoCount : Nat
  errors : List LogMessage
  warnings : List LogMessage
  info : List LogMessage
  hasErrors : Bool
  hasWarnings : Bool
  suggestions : List String
deriving DecidableEq, Repr

/-- `handle_parse_build_log`, as a function of the file's lines: full
classification, uncapped counts, capped returned lists (20/20/10). -/
def handle_parse_build_log (lines : List String) : BuildLogResult :=
  let (errors, warnings, infoMessages) := classifyLines 1 lines
  { totalLines := lines.length
    errorsCount := errors.length
    warningsCount := warnings.length
    infoCount := infoMessages.length
    errors := errors.take 20
    warnings := warnings.take 20
    info := infoMessages.take 10
    hasErrors := decide (0 < errors.length)
    hasWarnings := decide (0 < warnings.length)
    suggestions := if errors.isEmpty then [] else buildSuggestions errors }

/-! ## Memory-map analyzer (`handle_analyze_memory_map`) -/

structure MemRegion where
  name : String
  address : Int
  size : Int
deriving DecidableEq, Repr

structure MapSymbol where
  name : String
  address : Int
  size : Int
deriving DecidableEq, Repr

/-- The region branch: a line starting with `.` and containing `0x`, with
at least 3 whitespace tokens whose tokens 1 and 2 parse as hex.  (The
source formats the address back to a `0x%08X` string for display; the
embedding keeps the parsed integer.) -/
def parseRegionLine (line : String) : Option MemRegion :=
  if pyStartsWith line "." ∧ strContains line "0x" then
    match pySplitWS line with
    | p0 :: p1 :: p2 :: _ =>
      match pyIntHex p1 with
      | some addr =>
        match pyIntHex p2 with
        | some size => some ⟨p0, addr, size⟩
        | none => none
      | none => none
    | _ => none
  else none

/-- The symbol branch of the scan loop: a non-blank line not starting with
`.` and containing `0x`, with at least 2 whitespace tokens.  Mirrors the
source exactly: `addr = int(parts[-2], 16)`,
`size = int(parts[-1], 16) if len(parts) >= 3 else 0`,
`name = ' '.join(parts[:-2]) if len(parts) > 3 else parts[0]`,
with any `ValueError` skipping the line.  The line is only examined by
this branch when the region branch did not claim it. -/
def parseSymbolLine (line : String) : Option MapSymbol :=
  if pyStrip line ≠ "" ∧ ¬ pyStartsWith line "." ∧ strContains line "0x" then
    let parts := pySplitWS line
    if parts.length ≥ 2 then
      -- parts[-2] and parts[-1]; the guards keep the indices in range,
      -- so the `getD` defaults are never taken
      match pyIntHex (parts.getD (parts.length - 2) "") with
      | some addr =>
        if parts.length ≥ 3 then
          match pyIntHex (parts.getD (parts.length - 1) "") with
          | some size =>
            some ⟨if parts.length > 3 then
                    String.intercalate " " (parts.take (parts.length - 2))
                  else parts.headD "", addr, size⟩
          | none => none
        else
          some ⟨if parts.length > 3 then
                  String.intercalate " " (parts.take (parts.length - 2))
                else parts.headD "", addr, 0⟩
      | none => none
    else none
  else none

/-- The scan loop of `handle_analyze_memory_map`: regions, symbols and the
running total of region sizes. -/
def scanMapLines : List String → List MemRegion × List MapSymbol × Int
  | [] => ([], [], 0)
  | line :: rest =>
    let (rs, ss, t) := scanMapLines rest
    if pyStartsWith line "." ∧ strContains line "0x" then
      match parseRegionLine line with
      | some r => (r :: rs, ss, r.size + t)
      | none => (rs, ss, t)
    else
      match parseSymbolLine line with
      | some s => (rs, s :: ss, t)
      | none => (rs, ss, t)

/-! ## Sdkconfig differ (`handle_compare_sdkconfig`) -/

/-- One parsed line of `parse_config`: strip the line; keep it when it is
non-blank, does not start with `#` and contains `=`; split at the first
`=`; strip the key; strip the value and its surrounding quotes. -/
def parseConfigLine (rawLine : String) : Option (String × String) :=
  let line := pyStrip rawLine
  if line ≠ "" ∧ ¬ pyStartsWith line "#" ∧ strContains line "=" then
    let (k, v) := pySplitFirst line '='
    some (pyStrip k, pyStripQuotes (pyStrip v))
  else none

/-- Python dict assignment on an association list: overwrite in place when
the key exists, otherwise append. -/
def dictInsert (cfg : List (String × String)) (k v : String) :
    List (String × String) :=
  if cfg.any (fun p => p.1 = k) then
    cfg.map (fun p => if p.1 = k then (k, v) else p)
  else cfg ++ [(k, v)]

/-- `parse_config`: fold the file's lines into a key→value mapping. -/
def parse_config (lines : List String) : List (String × String) :=
  lines.foldl (fun cfg line =>
    match parseConfigLine line with
    | some (k, v) => dictInsert cfg k v
    | none => cfg) []

/-- Dict key membership. -/
def hasKey (cfg : List (String × String)) (k : String) : Bool :=
  cfg.any (fun p => p.1 = k)

/-- Dict value access (`config[key]`; the call sites guard presence). -/
def getVal (cfg : List (String × String)) (k : String) : String :=
  match cfg.find? (fun p => p.1 = k) with
  | some p => p.2
  | none => ""

/-- `_categorize_config`: closed substring classification of a key. -/
def categorize_config (key : String) : String :=
  let k := pyLower key
  if strContains k "wifi" then "WiFi"
  else if strContains k "ble" || strContains k "bluetooth" then "Bluetooth"
  else if strContains k "cpu" || strContains k "freq" then "Performance"
  else if strContains k "heap" || strContains k "memory" then "Memory"
  else if strContains k "log" || strContains k "debug" then "Debug"
  else "General"

/-- `_config_recommendation`.  For `freq` keys the source calls
`int(new_val)` and `int(old_val)`, which raise `ValueError` on non-numeric
strings; the `Except` error carries the Python exception text. -/
def config_recommendation (key oldVal newVal : String) :
    Except String String :=
  if strContains (pyLower key) "freq" then
    match pyIntDec newVal with
    | none =>
      .error ("invalid literal for int() with base 10: '" ++ newVal ++ "'")
    | some nv =>
      match pyIntDec oldVal with
      | none =>
        .error ("invalid literal for int() with base 10: '" ++ oldVal ++ "'")
      | some ov =>
        .ok (if nv > ov then
          "Increasing CPU frequency improves performance but increases power consumption"
        else
          "Decreasing CPU frequency saves power but reduces performance")
  else if strContains (pyLower key) "heap" then
    .ok "Heap size change may affect available memory for tasks"
  else if strContains (pyLower key) "log" then
    .ok (if newVal = "n" then
      "Disabling logs saves flash space but makes debugging harder"
    else
      "Enabling logs helps debugging but uses more flash space")
  else .ok ""

structure AddedEntry where
  key : String
  value : String
  category : String
deriving DecidableEq, Repr

structure ModifiedEntry where
  key : String
  oldValue : String
  newValue : String
  category : String
  recommendation : String
deriving DecidableEq, Repr

/-- `sorted(set(config1) | set(config2))`: deduplicated key union in
ascending string order. -/
def sortedKeys (c1 c2 : List (String × String)) : List String :=
  List.insertionSort (· ≤ ·) ((c1.map Prod.fst ++ c2.map Prod.fst).dedup)

/-- The diff loop over the sorted key union: added / removed / modified
lists in key order.  The `freq` recommendation can raise, which aborts the
whole handler into its `except` clause. -/
def diffKeys (c1 c2 : List (String × String)) :
    List String →
    Except String (List AddedEntry × List AddedEntry × List ModifiedEntry)
  | [] => .ok ([], [], [])
  | k :: rest =>
    if ¬ hasKey c1 k then
      (diffKeys c1 c2 rest).map (fun (a, r, m) =>
        (⟨k, getVal c2 k, categorize_config k⟩ :: a, r, m))
    else if ¬ hasKey c2 k then
      (diffKeys c1 c2 rest).map (fun (a, r, m) =>
        (a, ⟨k, getVal c1 k, categorize_config k⟩ :: r, m))
    else if getVal c1 k ≠ getVal c2 k then
      match config_recommendation k (getVal c1 k) (getVal c2 k) with
      | .error e => .error e
      | .ok rec_ =>
        (diffKeys c1 c2 rest).map (fun (a, r, m) =>
          (a, r, ⟨k, getVal c1 k, getVal c2 k, categorize_config k, rec_⟩ :: m))
    else (diffKeys c1 c2 rest)

structure SdkconfigDiff where
  totalKeys : Nat
  addedCount : Nat
  removedCount : Nat
  modifiedCount : Nat
  added : List AddedEntry
  removed : List AddedEntry
  modified : List ModifiedEntry
deriving DecidableEq, Repr

/-- The comparison core of `handle_compare_sdkconfig`, from the two parsed
mappings: uncapped counts, capped lists (50/50/100).  An exception
anywhere (the `freq` recommendation) becomes the handler's error result. -/
def compareConfigs (c1 c2 : List (String × String)) :
    Except String SdkconfigDiff :=
  let keys := sortedKeys c1 c2
  (diffKeys c1 c2 keys).map (fun (a, r, m) =>
    { totalKeys := keys.length
      addedCount := a.length
      removedCount := r.length
      modifiedCount := m.length
      added := a.take 50
      removed := r.take 50
      modified := m.take 100 })

/-- `handle_compare_sdkconfig` as a function of the two files' lines.
`.error` models the `{"error": ...}` return from the `except` clause;
`.ok` models the `{"result": ...}` return. -/
def handle_compare_sdkconfig (lines1 lines2 : List String) :
    Except String SdkconfigDiff :=
  compareConfigs (parse_config lines1) (parse_config lines2)

/-! ## Device-log formatter (`handle_format_device_log`) -/

/-- Coarse level detection: first of the five level words contained in the
stripped line (case-sensitive), else `OTHER`. -/
def coarseLevel (s : String) : String :=
  if strContains s "ERROR" then "ERROR"
  else if strContains s "WARNING" then "WARNING"
  else if strContains s "INFO" then "INFO"
  else if strContains s "DEBUG" then "DEBUG"
  else if strContains s "VERBOSE" then "VERBOSE"
  else "OTHER"

/-- The structured ESP-IDF pattern `([EIWDV]) \((\d+)\) ([^:]+): (.+)`
matched at the start of the stripped line (`re.match`).  The greedy
`[^:]+` group runs exactly to the first colon. -/
def parseEspL : List Char → Option (Char × String × String × String)
  | c :: ' ' :: '(' :: rest =>
    if c ∈ ['E', 'I', 'W', 'D', 'V'] then
      let ds := rest.takeWhile Char.isDigit
      let r2 := rest.dropWhile Char.isDigit
      if ds ≠ [] then
        match r2 with
        | ')' :: ' ' :: r3 =>
          let tag := r3.takeWhile (· ≠ ':')
          let r4 := r3.dropWhile (· ≠ ':')
          if tag ≠ [] then
            match r4 with
            | ':' :: ' ' :: msg =>
              if msg ≠ [] then some (c, ds.asString, tag.asString, msg.asString)
              else none
            | _ => none
          else none
        | _ => none
      else none
    else none
  | _ => none

/-- The level-char mapping applied on a successful structured match. -/
def levelFromChar (c : Char) (fallback : String) : String :=
  if c = 'E' then "ERROR"
  else if c = 'W' then "WARNING"
  else if c = 'I' then "INFO"
  else if c = 'D' then "DEBUG"
  else if c = 'V' then "VERBOSE"
  else fallback

structure LevelCounts where
  error : Nat
  warning : Nat
  info : Nat
  debug : Nat
  verbose : Nat
  other : Nat
deriving DecidableEq, Repr

def LevelCounts.init : LevelCounts := ⟨0, 0, 0, 0, 0, 0⟩

/-- `level_counts[level] += 1` (level is always one of the six keys). -/
def LevelCounts.bump (lc : LevelCounts) (lvl : String) : LevelCounts :=
  if lvl = "ERROR" then { lc with error := lc.error + 1 }
  else if lvl = "WARNING" then { lc with warning := lc.warning + 1 }
  else if lvl = "INFO" then { lc with info := lc.info + 1 }
  else if lvl = "DEBUG" then { lc with debug := lc.debug + 1 }
  else if lvl = "VERBOSE" then { lc with verbose := lc.verbose + 1 }
  else { lc with other := lc.other + 1 }

structure DeviceLogEntry where
  level : String
  timestamp : String
  tag : String
  message : String
  isCrash : Bool
  isError : Bool
deriving DecidableEq, Repr

def crashKeywords : List String :=
  ["assert", "abort", "guru", "panic", "stack trace", "backtrace"]

/-- Process one raw device-log line: `none` for blank lines (skipped with
no count), otherwise the coarse level counted *before* the structured
override, and the entry built from the resolved level.  The returned pair
is (coarse level, entry). -/
def processDeviceLine (line : String) : Option (String × DeviceLogEntry) :=
  let stripped := pyStrip line
  if stripped = "" then none
  else
    let coarse := coarseLevel stripped
    let (level, timestamp, tag, message) :=
      match parseEspL stripped.data with
      | some (c, ts, tg, m) => (levelFromChar c coarse, ts, tg, m)
      | none => (coarse, "", "", stripped)
    let lowr := pyLower stripped
    let isCrash := crashKeywords.any (fun k => strContains lowr k)
    let isError := level = "ERROR" || strContains lowr "error"
    some (coarse, ⟨level, timestamp, tag, message, isCrash, isError⟩)

/-- The per-line loop of `handle_format_device_log`: accumulate level
counts over the coarse level of every non-blank line, retain an entry when
the filter is empty or equals the resolved level. -/
def deviceLogScan (filterLevel : String) :
    List String → LevelCounts × List DeviceLogEntry
  | [] => (.init, [])
  | line :: rest =>
    let (lc, es) := deviceLogScan filterLevel rest
    match processDeviceLine line with
    | none => (lc, es)
    | some (coarse, e) =>
      (lc.bump coarse,
       if filterLevel = "" ∨ e.level = filterLevel then e :: es else es)

structure DeviceLogResult where
  totalLines : Nat
  totalEntries : Nat
  levelCounts : LevelCounts
  crashesCount : Nat
  errorsCount : Nat
  entries : List DeviceLogEntry
  crashes : List DeviceLogEntry
  errors : List DeviceLogEntry
  recommendations : List String
deriving DecidableEq, Repr

/-- `handle_format_device_log` as a function of the file's lines and the
raw `filter_level` argument (upper-cased by the handler). -/
def handle_format_device_log (lines : List String) (filterArg : String) :
    DeviceLogResult :=
  let fl := pyUpper filterArg
  let (lc, entries) := deviceLogScan fl lines
  let crashes := entries.filter (·.isCrash)
  let errors := entries.filter (·.isError)
  let recommendations :=
    (if crashes.length > 0 then
      ["Found " ++ toString crashes.length ++ " crash(es) - review stack traces"]
     else []) ++
    (if errors.length > 0 then
      ["Found " ++ toString errors.length ++ " error(s) - review error messages"]
     else []) ++
    (if lc.error > 10 then
      ["High error count detected - investigate error patterns"] else [])
  { totalLines := lines.length
    totalEntries := entries.length
    levelCounts := lc
    crashesCount := crashes.length
    errorsCount := errors.length
    entries := entries.take 200
    crashes := crashes.take 10
    errors := errors.take 20
    recommendations := recommendations }

/-! ## Dependency-graph analyzer
(`_detect_circular_deps`, `_calculate_max_depth`,
`handle_analyze_dependencies`) -/

/-- `dep.replace(' (private)', '').strip()`. -/
def cleanDep (s : String) : String :=
  pyStrip (pyReplace s " (private)" "")

/-- `deps.get(node, [])` on the dependency mapping. -/
def lookupDeps (deps : List (String × List String)) (n : String) :
    List String :=
  match deps.find? (fun p => p.1 = n) with
  | some p => p.2
  | none => []

/-- The `for dep in deps.get(node, [])` loop inside `dfs`: iterate the
pending dependencies, calling the recursive visitor (`dfs` at one less
fuel) on each cleaned target, threading the state and ignoring the
returned boolean exactly as the source does. -/
def dfsFold
    (visit : String → List String → List String → List String →
      List (List String) →
      Option (List String × List String × List (List String) × Bool))
    (node : String) (path : List String) :
    List String → List String → List String → List (List String) →
    Option (List String × List String × List (List String))
  | [], recStack, visited, circular => some (recStack, visited, circular)
  | dep :: more, recStack, visited, circular =>
    match visit (cleanDep dep) (path ++ [node]) recStack visited circular with
    | some (rs, vis, circ, _) => dfsFold visit node path more rs vis circ
    | none => none

/-- The DFS of `_detect_circular_deps`, with an explicit fuel bound on the
nesting depth (the Python recursion always terminates because `visited`
grows; `depFuel` below is a sufficient bound).  State: recursion stack
(`rec_stack`), visited set, recorded cycles.  Returns the Python function's
boolean as well (its callers ignore it). -/
def dfsNode (deps : List (String × List String)) :
    Nat → String → List String → List String → List String →
    List (List String) →
    Option (List String × List String × List (List String) × Bool)
  | 0, _, _, _, _, _ => none
  | fuel + 1, node, path, recStack, visited, circular =>
    if node ∈ recStack then
      -- cycle = path[path.index(node):] + [node]
      some (recStack, visited,
        circular ++ [path.drop (path.indexOf node) ++ [node]], true)
    else if node ∈ visited then
      some (recStack, visited, circular, false)
    else
      match dfsFold (dfsNode deps fuel) node path (lookupDeps deps node)
          (node :: recStack) (visited ++ [node]) circular with
      | some (rs, vis, circ) => some (rs.erase node, vis, circ, false)
      | none => none


/-- All strings the DFS can ever visit: the mapping's keys and every
cleaned dependency target. -/
def depUniverse (deps : List (String × List String)) : List String :=
  (deps.map Prod.fst ++ ((deps.map Prod.snd).flatten.map cleanDep)).dedup

/-- A fuel bound sufficient for the whole traversal. -/
def depFuel (deps : List (String × List String)) : Nat :=
  (depUniverse deps).length + 1

/-- The `for node in deps:` driver loop of `_detect_circular_deps`. -/
def detectDriver (deps : List (String × List String)) (fuel : Nat) :
    List String → List String × List String × List (List String) →
    Option (List String × List String × List (List String))
  | [], st => some st
  | k :: ks, (recStack, visited, circular) =>
    match dfsNode deps fuel k [] recStack visited circular with
    | some (rs, vis, circ, _) => detectDriver deps fuel ks (rs, vis, circ)
    | none => none

/-- `_detect_circular_deps`. -/
def detect_circular_deps (deps : List (String × List String)) :
    Option (List (List String)) :=
  (detectDriver deps (depFuel deps) (deps.map Prod.fst) ([], [], [])).map
    (fun st => st.2.2)

/-- The `for dep in node_deps` loop inside `get_depth`: running maximum
of child depths, computed by the recursive visitor (`get_depth` at one
less fuel) and threading the memo. -/
def depthFold
    (visit : List (String × Nat) → String →
      Option (Nat × List (String × Nat))) :
    List String → List (String × Nat) → Nat →
    Option (Nat × List (String × Nat))
  | [], memo, acc => some (acc, memo)
  | dep :: more, memo, acc =>
    match visit memo (cleanDep dep) with
    | some (d, memo2) => depthFold visit more memo2 (max acc d)
    | none => none

/-- The memoized `get_depth` of `_calculate_max_depth`, fueled on nesting
depth (`none` models the unbounded recursion a dependency cycle causes).
A leaf returns 0 without touching the memo, exactly as the source does. -/
def get_depth (deps : List (String × List String)) :
    Nat → List (String × Nat) → String →
    Option (Nat × List (String × Nat))
  | 0, _, _ => none
  | fuel + 1, memo, node =>
    match memo.find? (fun p => p.1 = node) with
    | some p => some (p.2, memo)
    | none =>
      let nodeDeps := lookupDeps deps node
      if nodeDeps.isEmpty then some (0, memo)
      else
        match depthFold (get_depth deps fuel) nodeDeps memo 0 with
        | some (mx, memo2) => some (mx + 1, memo2 ++ [(node, mx + 1)])
        | none => none


/-- The `for node in deps` driver of `_calculate_max_depth`, threading the
shared memo. -/
def maxDepthDriver (deps : List (String × List String)) (fuel : Nat) :
    List String → List (String × Nat) → Nat → Option Nat
  | [], _, acc => some acc
  | k :: ks, memo, acc =>
    match get_depth deps fuel memo k with
    | some (d, memo2) => maxDepthDriver deps fuel ks memo2 (max acc d)
    | none => none

/-- `_calculate_max_depth` at a given fuel bound. -/
def calculate_max_depth (deps : List (String × List String)) (fuel : Nat) :
    Option Nat :=
  maxDepthDriver deps fuel (deps.map Prod.fst) [] 0

/-- Python runtime values, as far as `comp in circular_deps` needs them:
a string compared against list elements; values of different runtime
types are never `==`. -/
inductive PyVal where
  | pstr (s : String)
  | plist (xs : List PyVal)

mutual

/-- Python `==` on dynamic values. -/
def PyVal.beq : PyVal → PyVal → Bool
  | .pstr a, .pstr b => a = b
  | .plist xs, .plist ys => PyVal.beqList xs ys
  | _, _ => false

def PyVal.beqList : List PyVal → List PyVal → Bool
  | [], [] => true
  | x :: xs, y :: ys => PyVal.beq x y && PyVal.beqList xs ys
  | _, _ => false

end

instance : BEq PyVal := ⟨PyVal.beq⟩

/-- `"has_circular": comp in circular_deps` — membership of the component
name (a string) in the list of detected cycles (a list of lists). -/
def has_circular (comp : String) (circular : List (List String)) : Bool :=
  (circular.map (fun cyc => PyVal.plist (cyc.map PyVal.pstr))).contains
    (PyVal.pstr comp)

structure ComponentInfo where
  name : String
  dependencies : List String
  dependencyCount : Nat
  isLeaf : Bool
  hasCircular : Bool
deriving DecidableEq, Repr

/-- The `component_info` construction of `handle_analyze_dependencies`
(`for comp in sorted(all_components)`). -/
def analyze_components (allComponents : List String)
    (deps : List (String × List String)) (circular : List (List String)) :
    List ComponentInfo :=
  (List.insertionSort (· ≤ ·) allComponents).map (fun comp =>
    let compDeps := lookupDeps deps comp
    ⟨comp, compDeps, compDeps.length, compDeps.length = 0,
      has_circular comp circular⟩)

/-- The analysis core of `handle_analyze_dependencies`, from the
discovered component set and dependency mapping (directory walking and
manifest regex scanning are filesystem collaborators outside the modelled
core): detected cycles plus the per-component records. -/
def analyze_dependencies_core (allComponents : List String)
    (deps : List (String × List String)) :
    Option (List ComponentInfo × List (List String)) :=
  (detect_circular_deps deps).map (fun circ =>
    (analyze_components allComponents deps circ, circ))

/-! ## Protocol engine (`ESPMCPServer`) -/

/-- JSON values, as decoded by `json.loads` (numbers restricted to
integers; no claim involves floats). -/
inductive JVal where
  | jnull
  | jbool (b : Bool)
  | jnum (n : Int)
  | jstr (s : String)
  | jarr (xs : List JVal)
  | jobj (kvs : List (String × JVal))

mutual

def JVal.beq : JVal → JVal → Bool
  | .jnull, .jnull => true
  | .jbool a, .jbool b => a = b
  | .jnum a, .jnum b => a = b
  | .jstr a, .jstr b => a = b
  | .jarr xs, .jarr ys => JVal.beqArr xs ys
  | .jobj xs, .jobj ys => JVal.beqObj xs ys
  | _, _ => false

def JVal.beqArr : List JVal → List JVal → Bool
  | [], [] => true
  | x :: xs, y :: ys => JVal.beq x y && JVal.beqArr xs ys
  | _, _ => false

def JVal.beqObj : List (String × JVal) → List (String × JVal) → Bool
  | [], [] => true
  | (k1, v1) :: xs, (k2, v2) :: ys =>
    k1 = k2 && JVal.beq v1 v2 && JVal.beqObj xs ys
  | _, _ => false

end

instance : BEq JVal := ⟨JVal.beq⟩

/-- `d.get(k)` on a decoded JSON object (decoded dicts have unique keys). -/
def pyDictGet (kvs : List (String × JVal)) (k : String) : Option JVal :=
  (kvs.find? (fun p => p.1 = k)).map Prod.snd

/-- Python truthiness of a decoded JSON value (`if response:`). -/
def jvalTruthy : JVal → Bool
  | .jnull => false
  | .jbool b => b
  | .jnum n => n ≠ 0
  | .jstr s => s ≠ ""
  | .jarr xs => ¬ xs.isEmpty
  | .jobj kvs => ¬ kvs.isEmpty

mutual

/-- Python `repr` of a decoded JSON value (used by `str` on containers). -/
def pyRepr : JVal → String
  | .jnull => "None"
  | .jbool true => "True"
  | .jbool false => "False"
  | .jnum n => toString n
  | .jstr s => "'" ++ s ++ "'"
  | .jarr xs => "[" ++ pyReprArr xs ++ "]"
  | .jobj kvs => "\x7b" ++ pyReprObj kvs ++ "\x7d"

def pyReprArr : List JVal → String
  | [] => ""
  | [x] => pyRepr x
  | x :: xs => pyRepr x ++ ", " ++ pyReprArr xs

def pyReprObj : List (String × JVal) → String
  | [] => ""
  | [(k, v)] => "'" ++ k ++ "': " ++ pyRepr v
  | (k, v) :: xs => "'" ++ k ++ "': " ++ pyRepr v ++ ", " ++ pyReprObj xs

end

/-- Python `str` / f-string interpolation of a decoded JSON value. -/
def pyStr : JVal → String
  | .jstr s => s
  | v => pyRepr v

/-- JSON string escaping for `json.dumps`. -/
def jsonEscape (s : String) : String :=
  s.data.foldl (fun acc c =>
    acc ++
      (if c = '"' then "\\\""
       else if c = '\\' then "\\\\"
       else if c = '\n' then "\\n"
       else if c = '\t' then "\\t"
       else if c = '\r' then "\\r"
       else String.singleton c)) ""

mutual

/-- `json.dumps(..., ensure_ascii=False)`.  The source passes `indent=2`
for the tool-call text payload; the embedding renders the same structure
compactly (the difference is whitespace only, and no claim inspects this
text). -/
def jsonDumps : JVal → String
  | .jnull => "null"
  | .jbool true => "true"
  | .jbool false => "false"
  | .jnum n => toString n
  | .jstr s => "\"" ++ jsonEscape s ++ "\""
  | .jarr xs => "[" ++ jsonDumpsArr xs ++ "]"
  | .jobj kvs => "\x7b" ++ jsonDumpsObj kvs ++ "\x7d"

def jsonDumpsArr : List JVal → String
  | [] => ""
  | [x] => jsonDumps x
  | x :: xs => jsonDumps x ++ ", " ++ jsonDumpsArr xs

def jsonDumpsObj : List (String × JVal) → String
  | [] => ""
  | [(k, v)] => "\"" ++ jsonEscape k ++ "\": " ++ jsonDumps v
  | (k, v) :: xs =>
    "\"" ++ jsonEscape k ++ "\": " ++ jsonDumps v ++ ", " ++ jsonDumpsObj xs

end

/-- The 30 registered tool names.  The same names appear, in the same
order, both in the static `TOOLS` registry and as the keys of the
`handlers` table inside `ESPMCPServer.execute_tool`. -/
def registeredToolNames : List String :=
  ["build_esp_project", "clean_esp_project", "erase_flash_esp",
   "monitor_esp", "flash_and_monitor_esp", "menuconfig_esp",
   "get_esp_idf_version", "check_esp_idf_env", "get_project_config",
   "set_esp_partition", "setup_project_esp_target", "create_esp_project",
   "flash_esp_project", "list_esp_serial_ports", "run_esp_idf_install",
   "run_pytest", "get_project_info", "list_components", "gdb_attach",
   "get_core_dump", "get_heap_info", "get_task_stats", "read_file",
   "write_file", "list_files", "parse_build_log", "analyze_memory_map",
   "compare_sdkconfig", "analyze_dependencies", "format_device_log"]

/-- The static `TOOLS` registry.  Each descriptor's `description` and
`inputSchema` fields are inert data that neither the protocol engine nor
any claim ever examines; the embedding keeps the `name` field of each
descriptor. -/
def TOOLS : List JVal :=
  registeredToolNames.map (fun n => .jobj [("name", .jstr n)])

/-- A handler implementation: every registered handler returns a dict
(`{"result": ...}` or `{"error": ...}` in the source); a raised exception
is modelled by `.error` with the exception text. -/
def ToolImpl := String → JVal → Except String (List (String × JVal))

/-- `ESPMCPServer.execute_tool`: `handlers.get(name)` runs *before* the
`try`, so an unhashable name (a decoded JSON array or object) raises
`TypeError` out of the function, modelled as `.error`; a hashable name
misses the string-keyed table and yields
`{"error": "Unknown tool: <name>"}`; a handler exception is caught inside
the `try` and becomes `{"error": str(e)}`. -/
def execute_tool (impl : ToolImpl) (name : JVal) (args : JVal) :
    Except String (List (String × JVal)) :=
  match name with
  | .jstr s =>
    if s ∈ registeredToolNames then
      match impl s args with
      | .ok r => .ok r
      | .error e => .ok [("error", .jstr e)]
    else .ok [("error", .jstr ("Unknown tool: " ++ s))]
  | .jarr _ => .error "TypeError: unhashable type: list"
  | .jobj _ => .error "TypeError: unhashable type: dict"
  | other => .ok [("error", .jstr ("Unknown tool: " ++ pyStr other))]

/-- A decoded JSON value that Python cannot hash (a list or a dict):
exactly the tool names on which `handlers.get(name)` raises `TypeError`
in `execute_tool`. -/
def unhashableName : JVal → Bool
  | .jarr _ => true
  | .jobj _ => true
  | _ => false

/-- `"id": req_id` in a response: a missing id serializes as JSON null. -/
def idOrNull (reqId : Option JVal) : JVal :=
  reqId.getD .jnull

/-- `ESPMCPServer._handle_initialize`.  `idfPath` is the value of the
`IDF_PATH` environment variable after the display normalization
(`os.path.abspath(...).replace('\\', '/')`, an OS collaborator).  The
`instructions` string enumerates every registered tool; the per-tool
description text after each name is inert display data and is elided
here (no claim examines it). -/
def handle_init_message (idfPath : Option String) (reqId : Option JVal) :
    JVal :=
  let pathInfo :=
    match idfPath with
    | some p => "\nESP-IDF path detected: " ++ p
    | none =>
      "\nNote: ESP-IDF path not detected in environment. Please configure IDF_PATH in MCP settings."
  let baseInstructions :=
    "# ESP MCP Server\n\nAvailable tools:\n" ++
    String.intercalate "" (registeredToolNames.map (fun n => "- " ++ n ++ ": ...\n"))
  .jobj [("jsonrpc", .jstr "2.0"), ("id", idOrNull reqId),
    ("result", .jobj
      [("protocolVersion", .jstr "2024-11-05"),
       ("capabilities", .jobj [("tools", .jobj [])]),
       ("serverInfo", .jobj
         [("name", .jstr "esp-mcp"), ("version", .jstr "1.0.0")]),
       ("instructions", .jstr (baseInstructions ++ pathInfo))])]

/-- `ESPMCPServer._handle_tools_list`. -/
def handle_tools_list (reqId : Option JVal) : JVal :=
  .jobj [("jsonrpc", .jstr "2.0"), ("id", idOrNull reqId),
    ("result", .jobj [("tools", .jarr TOOLS)])]

/-- `ESPMCPServer._error_response`. -/
def error_response (reqId : Option JVal) (code : Int) (message : String) :
    JVal :=
  .jobj [("jsonrpc", .jstr "2.0"), ("id", idOrNull reqId),
    ("error", .jobj [("code", .jnum code), ("message", .jstr message)])]

/-- `ESPMCPServer._handle_tools_call`.  When `params` is not a mapping,
`params.get` raises (`AttributeError`), modelled as `.error`; a
`TypeError` raised by `execute_tool` on an unhashable name propagates
unchanged. -/
def handle_tools_call (impl : ToolImpl) (reqId : Option JVal)
    (params : JVal) : Except String JVal :=
  match params with
  | .jobj kvs =>
    let toolName := (pyDictGet kvs "name").getD (.jstr "")
    let toolArgs := (pyDictGet kvs "arguments").getD (.jobj [])
    match execute_tool impl toolName toolArgs with
    | .error e => .error e
    | .ok result =>
      let isErr := (pyDictGet result "error").isSome
      let text :=
        if isErr then
          "Error: " ++ pyStr ((pyDictGet result "error").getD .jnull)
        else jsonDumps ((pyDictGet result "result").getD (.jobj result))
      .ok (.jobj [("jsonrpc", .jstr "2.0"), ("id", idOrNull reqId),
        ("result", .jobj
          [("content", .jarr
             [.jobj [("type", .jstr "text"), ("text", .jstr text)]]),
           ("isError", .jbool isErr)])])
  | _ => .error "AttributeError: object has no attribute get"

/-- `ESPMCPServer.handle_request`: exact string routing on `method`;
`none` is the no-response case; `.error` models an exception escaping the
handler (caught and swallowed by the `run` loop). -/
def handle_request (idfPath : Option String) (impl : ToolImpl)
    (req : List (String × JVal)) : Except String (Option JVal) :=
  let method := (pyDictGet req "method").getD (.jstr "")
  let reqId := pyDictGet req "id"
  let params := (pyDictGet req "params").getD (.jobj [])
  if method == .jstr "initialize" then
    .ok (some (handle_init_message idfPath reqId))
  else if method == .jstr "notifications/initialized" then
    .ok none
  else if method == .jstr "tools/list" then
    .ok (some (handle_tools_list reqId))
  else if method == .jstr "tools/call" then
    (handle_tools_call impl reqId params).map some
  else
    .ok (some (error_response reqId (-32601)
      ("Method not found: " ++ pyStr method)))

/-- One step of the `run` loop for a decoded request object: a response
line is written exactly when `handle_request` returns without raising and
its result is truthy (`if response:`); a raised exception is logged and
swallowed. -/
def emitsResponse (idfPath : Option String) (impl : ToolImpl)
    (req : List (String × JVal)) : Bool :=
  match handle_request idfPath impl req with
  | .ok (some r) => jvalTruthy r
  | _ => false

/-! ## Claim-side formalizations

Definitions in this section state claims of the specification in the
spec's own words, to be compared with the source-derived functions
above. -/

/-- Number of non-blank device-log lines whose *resolved* level (after
the structured-pattern override) is ERROR — the quantity the spec says
`level_counts["ERROR"]` reports. -/
def resolvedErrorTotal (lines : List String) : Nat :=
  lines.countP (fun line =>
    match processDeviceLine line with
    | some (_, e) => e.level = "ERROR"
    | none => false)

/-- Number of non-blank device-log lines whose *coarse* level (substring
detection, before the structured-pattern override) is ERROR — the
quantity the source actually counts. -/
def coarseErrorTotal (lines : List String) : Nat :=
  lines.countP (fun line =>
    match processDeviceLine line with
    | some (coarse, _) => coarse = "ERROR"
    | none => false)

/-- Claim C2 as stated: with filter `"ERROR"` only resolved-ERROR entries
are retained, and `level_counts["ERROR"]` equals the resolved-ERROR total
over the whole unfiltered input. -/
def deviceLogClaim : Prop :=
  ∀ lines : List String,
    (∀ e ∈ (handle_format_device_log lines "ERROR").entries,
      e.level = "ERROR") ∧
    (handle_format_device_log lines "ERROR").levelCounts.error =
      resolvedErrorTotal lines

/-- Claim C4's reading of the two-token symbol case: a symbol line with
exactly two whitespace tokens whose second (address) token parses as hex
yields a symbol whose size defaults to 0 and whose name is the name token
alone. -/
def symbolClaimTwoToken : Prop :=
  ∀ line t0 t1,
    pyStrip line ≠ "" → ¬ pyStartsWith line "." → strContains line "0x" →
    pySplitWS line = [t0, t1] → (pyIntHex t1).isSome →
    ∃ a, parseSymbolLine line = some ⟨t0, a, 0⟩

/-- The amended specification of the symbol branch, by token count: with
three or more tokens the last two parse as hex address and size and the
name is every other token joined by spaces; with exactly two tokens the
*name* token itself is parsed as the hex address (so the line is kept only
when the name is valid hex), the size defaults to 0 and the name is that
token; anything non-parseable is skipped. -/
def symbolSpecParse (line : String) : Option MapSymbol :=
  if pyStrip line ≠ "" ∧ ¬ pyStartsWith line "." ∧ strContains line "0x" then
    let parts := pySplitWS line
    if parts.length ≥ 3 then
      match parts.dropLast.getLast?, parts.getLast? with
      | some addrTok, some sizeTok =>
        match pyIntHex addrTok, pyIntHex sizeTok with
        | some addr, some size =>
          some ⟨String.intercalate " " parts.dropLast.dropLast, addr, size⟩
        | _, _ => none
      | _, _ => none
    else
      match parts with
      | [nameTok, _] =>
        match pyIntHex nameTok with
        | some addr => some ⟨nameTok, addr, 0⟩
        | none => none
      | _ => none
  else none

/-- Claim C3 as stated: for every pair of (readable) config files, the
comparison produces a result, never an error. -/
def sdkconfigNeverErrors : Prop :=
  ∀ lines1 lines2, (handle_compare_sdkconfig lines1 lines2).isOk

/-- Claim C1 as stated: a decoded request without an `id` key never
produces a response line, whatever its method. -/
def noIdNoResponseClaim : Prop :=
  ∀ (idfPath : Option String) (impl : ToolImpl)
    (req : List (String × JVal)),
    pyDictGet req "id" = none → emitsResponse idfPath impl req = false

/-- A concrete handler implementation for closed counterexamples and
witnesses (its behavior is irrelevant to the statements that use it). -/
def trivialImpl : ToolImpl := fun _ _ => .ok [("result", .jstr "ok")]

/-- Projection of a Modified entry without its (direction-dependent)
recommendation text, for stating the diff symmetry. -/
def modSel (e : ModifiedEntry) : String × String × String × String :=
  (e.key, e.oldValue, e.newValue, e.category)

/-- The same projection with old and new value exchanged. -/
def modSelSwap (e : ModifiedEntry) : String × String × String × String :=
  (e.key, e.newValue, e.oldValue, e.category)

/-- The cleaned dependency targets of a node (the edge relation the
depth/cycle analyses traverse). -/
def cleanDeps (deps : List (String × List String)) (n : String) :
    List String :=
  (lookupDeps deps n).map cleanDep

/-- The specification's depth equations, as a fuel-indexed recursion: a
node with no dependencies has depth 0, any other node has depth one more
than the maximum depth of its cleaned dependencies.  (For an acyclic edge
relation the value is independent of the fuel once the fuel exceeds the
node's rank; see `depthPure_stable`.) -/
def depthPure (deps : List (String × List String)) : Nat → String → Nat
  | 0, _ => 0
  | fuel + 1, n =>
    let ds := cleanDeps deps n
    if ds.isEmpty then 0
    else 1 + (ds.map (depthPure deps fuel)).foldl max 0

/-- Soundness of a memo table with respect to a rank function witnessing
acyclicity: every stored entry is the node's true depth. -/
def memoSound (deps : List (String × List String)) (rank : String → Nat)
    (memo : List (String × Nat)) : Prop :=
  ∀ p ∈ memo, p.2 = depthPure deps (rank p.1 + 1) p.1

/-- A recorded cycle containing both of two given components. -/
def cycleWith (a b : String) (circular : List (List String)) : Prop :=
  ∃ cyc ∈ circular, a ∈ cyc ∧ b ∈ cyc

/-! # Theorems -/

/-! ## C6 — build-log classifier: disjoint buckets, exact counts, caps -/

theorem classifyLines_lengths (i : Nat) (lines : List String) :
    (classifyLines i lines).1.length =
      lines.countP (fun l => classifyLine l == LineClass.err) ∧
    (classifyLines i lines).2.1.length =
      lines.countP (fun l => classifyLine l == LineClass.warn) ∧
    (classifyLines i lines).2.2.length =
      lines.countP (fun l => classifyLine l == LineClass.info) := by
  induction lines generalizing i with
  | nil => simp [classifyLines]
  | cons line rest ih =>
    obtain ⟨h1, h2, h3⟩ := ih (i + 1)
    simp only [classifyLines, List.countP_cons]
    cases h : classifyLine line <;>
      simp [h, h1, h2, h3]

theorem classify_partition (lines : List String) :
    lines.countP (fun l => classifyLine l == LineClass.err) +
    lines.countP (fun l => classifyLine l == LineClass.warn) +
    lines.countP (fun l => classifyLine l == LineClass.info) +
    lines.countP (fun l => classifyLine l == LineClass.other) =
    lines.length := by
  induction lines with
  | nil => simp
  | cons line rest ih =>
    simp only [List.countP_cons, List.length_cons]
    cases h : classifyLine line <;> simp [h] <;> omega

/-- C6: every build-log line lands in at most one bucket (the counts of
the three keyword buckets plus the unclassified remainder partition the
line count exactly), the reported counts are the uncapped bucket sizes
over the whole input, and the returned lists are the first 20 / 20 / 10
entries of the respective buckets. -/
theorem C6_buildlog_partition_and_caps (lines : List String) :
    (handle_parse_build_log lines).errorsCount +
      (handle_parse_build_log lines).warningsCount +
      (handle_parse_build_log lines).infoCount +
      lines.countP (fun l => classifyLine l == LineClass.other) =
      (handle_parse_build_log lines).totalLines ∧
    (handle_parse_build_log lines).errorsCount =
      lines.countP (fun l => classifyLine l == LineClass.err) ∧
    (handle_parse_build_log lines).warningsCount =
      lines.countP (fun l => classifyLine l == LineClass.warn) ∧
    (handle_parse_build_log lines).infoCount =
      lines.countP (fun l => classifyLine l == LineClass.info) ∧
    (handle_parse_build_log lines).errors =
      (classifyLines 1 lines).1.take 20 ∧
    (handle_parse_build_log lines).warnings =
      (classifyLines 1 lines).2.1.take 20 ∧
    (handle_parse_build_log lines).info =
      (classifyLines 1 lines).2.2.take 10 ∧
    (handle_parse_build_log lines).errors.length ≤ 20 ∧
    (handle_parse_build_log lines).warnings.length ≤ 20 ∧
    (handle_parse_build_log lines).info.length ≤ 10 := by
  obtain ⟨h1, h2, h3⟩ := classifyLines_lengths 1 lines
  have hpart := classify_partition lines
  refine ⟨?_, ?_, ?_, ?_, ?_, ?_, ?_, ?_, ?_, ?_⟩ <;>
    simp [handle_parse_build_log, h1, h2, h3] <;>
    omega

/-! ## C10 — `has_circular` is always false -/

theorem has_circular_eq_false (comp : String) (circular : List (List String)) :
    has_circular comp circular = false := by
  induction circular with
  | nil => rfl
  | cons cyc rest ih =>
    simp only [has_circular, List.map_cons, List.contains_cons]
    have hne : (PyVal.pstr comp == PyVal.plist (cyc.map PyVal.pstr)) = false := rfl
    simpa [hne, has_circular] using ih

/-- C10: in the `analyze_dependencies` output every component record has
`has_circular = false` — even when the detected-cycles list is non-empty —
because the flag tests membership of the component name (a string) in a
list of cycles (lists of names), and values of different runtime types
are never equal. -/
theorem C10_has_circular_always_false
    (allComponents : List String) (deps : List (String × List String))
    (infos : List ComponentInfo) (circular : List (List String))
    (h : analyze_dependencies_core allComponents deps = some (infos, circular)) :
    infos.all (fun ci => !ci.hasCircular) = true := by
  have hinfos : infos = analyze_components allComponents deps circular := by
    unfold analyze_dependencies_core at h
    cases hdet : detect_circular_deps deps with
    | none => rw [hdet] at h; simp at h
    | some c =>
      rw [hdet] at h
      simp only [Option.map_some'] at h
      have h2 := Option.some.inj h
      have hfst : analyze_components allComponents deps c = infos :=
        congrArg Prod.fst h2
      have hsnd : c = circular := congrArg Prod.snd h2
      rw [← hfst, hsnd]
  subst hinfos
  simp only [List.all_eq_true, analyze_components, List.mem_map]
  rintro ci ⟨comp, -, rfl⟩
  simp [has_circular_eq_false]

/-- Witness for C10 at a concrete two-component cyclic project: the
detector reports a cycle, yet every record's flag is false. -/
theorem C10_witness :
    analyze_dependencies_core ["a", "b"] [("a", ["b"]), ("b", ["a"])] =
      some (analyze_components ["a", "b"] [("a", ["b"]), ("b", ["a"])]
        [["a", "b", "a"]], [["a", "b", "a"]]) ∧
    ([["a", "b", "a"]] : List (List String)) ≠ [] ∧
    (analyze_components ["a", "b"] [("a", ["b"]), ("b", ["a"])]
        [["a", "b", "a"]]).all (fun ci => !ci.hasCircular) = true :=
  ⟨rfl, by decide,
   C10_has_circular_always_false ["a", "b"] [("a", ["b"]), ("b", ["a"])]
     (analyze_components ["a", "b"] [("a", ["b"]), ("b", ["a"])]
       [["a", "b", "a"]]) [["a", "b", "a"]] rfl⟩

/-! ## C4 — memory-map symbol parsing -/

theorem getD_last (l : List String) (h : l ≠ []) :
    l.getD (l.length - 1) "" = l.getLast?.getD "" := by
  induction l with
  | nil => exact absurd rfl h
  | cons a t ih =>
    cases t with
    | nil => rfl
    | cons b t2 =>
      show (a :: b :: t2 : List String).getD (t2.length + 1) "" = _
      rw [List.getD_cons_succ, List.getLast?_cons_cons]
      exact ih (by simp)

theorem getD_last_two (l : List String) (h : 2 ≤ l.length) :
    l.getD (l.length - 2) "" = l.dropLast.getLast?.getD "" := by
  have hlen : l.dropLast.length = l.length - 1 := by
    rw [List.dropLast_eq_take, List.length_take]; omega
  have hne : l.dropLast ≠ [] := by
    intro hcon
    rw [hcon] at hlen
    simp at hlen
    omega
  rw [← getD_last _ hne, hlen, List.dropLast_eq_take,
    List.getD_eq_getElem?_getD, List.getD_eq_getElem?_getD,
    List.getElem?_take]
  have : l.length - 1 - 1 = l.length - 2 := by omega
  rw [this, if_pos (by omega)]

theorem take_sub_two_eq_dropLast_dropLast (l : List String) :
    l.take (l.length - 2) = l.dropLast.dropLast := by
  rw [List.dropLast_eq_take, List.dropLast_eq_take, List.take_take,
    List.length_take]
  congr 1
  omega

/-- C4 counterexample: the claim's two-token clause fails.  On the line
`"main 0x100"` (a symbol line with exactly two tokens whose address token
is valid hex) the source parses the *name* token `"main"` as the
hexadecimal address, fails, and skips the line — no symbol is produced. -/
theorem C4_counterexample : ¬ symbolClaimTwoToken := by
  intro h
  obtain ⟨a, ha⟩ := h "main 0x100" "main" "0x100"
    (by decide) (by decide) (by decide) (by decide) (by decide)
  rw [show parseSymbolLine "main 0x100" = none from by decide] at ha
  exact Option.noConfusion ha

/-- C4 amended: the symbol branch parses, for a symbol line with at least
three tokens, the last two tokens as hex address and size with the name
being every other token joined by spaces; for exactly two tokens it parses
the *name* token itself as the hex address (keeping the line only when the
name is valid hex) with size 0 and name that token; all other lines are
skipped. -/
theorem C4_amended_symbol_parse (line : String) :
    parseSymbolLine line = symbolSpecParse line := by
  unfold parseSymbolLine symbolSpecParse
  split
  case isFalse => rfl
  case isTrue hgate =>
    rcases hparts : pySplitWS line with - | ⟨t0, - | ⟨t1, - | ⟨t2, rest⟩⟩⟩
    · rfl
    · rfl
    · -- exactly two tokens
      dsimp only
      rcases haddr : pyIntHex t0 with - | addr <;>
        simp [List.getD, haddr]
    · -- at least three tokens
      dsimp only
      set parts := t0 :: t1 :: t2 :: rest with hp
      have hlen : 2 ≤ parts.length := by
        simp only [hp, List.length_cons]; omega
      have hlen3 : parts.length ≥ 3 := by
        simp only [hp, List.length_cons]; omega
      have hne : parts ≠ [] := by simp [hp]
      have hd2 := getD_last_two parts hlen
      have hd1 := getD_last parts hne
      have htake := take_sub_two_eq_dropLast_dropLast parts
      have hdlne : parts.dropLast ≠ [] := by
        have hl : parts.dropLast.length = parts.length - 1 := by
          rw [List.dropLast_eq_take, List.length_take]; omega
        intro hcon
        rw [hcon] at hl
        simp [hp] at hl
      rw [hd2, hd1]
      rcases hgl2 : parts.dropLast.getLast? with - | addrTok
      · exact absurd (List.getLast?_eq_none_iff.mp hgl2) hdlne
      rcases hgl1 : parts.getLast? with - | sizeTok
      · exact absurd (List.getLast?_eq_none_iff.mp hgl1) hne
      simp only [Option.getD_some]
      rcases haddr : pyIntHex addrTok with - | addr <;>
        rcases hsize : pyIntHex sizeTok with - | size <;>
        simp only [if_pos hlen3, if_pos (show parts.length ≥ 2 by omega)]
      case' some.some =>
        congr 1
        by_cases hgt : parts.length > 3
        · rw [if_pos hgt, htake]
        · -- exactly three tokens: rest = []
          have hrest : rest = [] := by
            have hr0 : rest.length = 0 := by
              simp only [hp, List.length_cons] at hgt; omega
            exact List.length_eq_zero.mp hr0
          subst hrest
          rw [if_neg hgt]
          rfl

/-- Witness for the amended C4 theorem at concrete three-token and
two-token lines. -/
theorem C4_amended_witness :
    parseSymbolLine "app_main 0x40080000 0x120" =
      symbolSpecParse "app_main 0x40080000 0x120" ∧
    parseSymbolLine "main 0x100" = symbolSpecParse "main 0x100" ∧
    symbolSpecParse "app_main 0x40080000 0x120" =
      some ⟨"app_main", 1074266112, 288⟩ ∧
    symbolSpecParse "main 0x100" = none :=
  ⟨C4_amended_symbol_parse "app_main 0x40080000 0x120",
   C4_amended_symbol_parse "main 0x100", by decide, by decide⟩

/-! ## C3 — sdkconfig comparison and the `freq` recommendation -/

/-- C3 counterexample: comparing two one-line config files that modify a
`freq` key between the non-numeric values `y` and `n` makes
`_config_recommendation` call `int` on a non-numeric string; the
`ValueError` reaches the handler's `except` clause and the handler
returns an error envelope, not a result. -/
theorem C3_counterexample : ¬ sdkconfigNeverErrors := by
  intro h
  have hc := h ["CONFIG_FREQ=y"] ["CONFIG_FREQ=n"]
  rw [show handle_compare_sdkconfig ["CONFIG_FREQ=y"] ["CONFIG_FREQ=n"] =
      Except.error "invalid literal for int() with base 10: 'n'" from rfl]
    at hc
  simp [Except.isOk, Except.toBool] at hc

theorem config_recommendation_ok_of (k old new : String)
    (h : strContains (pyLower k) "freq" = true →
      (pyIntDec new).isSome ∧ (pyIntDec old).isSome) :
    ∃ r, config_recommendation k old new = .ok r := by
  unfold config_recommendation
  by_cases hf : strContains (pyLower k) "freq" = true
  · obtain ⟨h1, h2⟩ := h hf
    rw [if_pos hf]
    obtain ⟨nv, hnv⟩ := Option.isSome_iff_exists.mp h1
    obtain ⟨ov, hov⟩ := Option.isSome_iff_exists.mp h2
    rw [hnv, hov]
    exact ⟨_, rfl⟩
  · rw [if_neg hf]
    by_cases hh : strContains (pyLower k) "heap" = true
    · exact ⟨_, by rw [if_pos hh]⟩
    · by_cases hl : strContains (pyLower k) "log" = true
      · exact ⟨_, by rw [if_neg hh, if_pos hl]⟩
      · exact ⟨_, by rw [if_neg hh, if_neg hl]⟩

theorem diffKeys_ok (c1 c2 : List (String × String)) (keys : List String)
    (h : ∀ k ∈ keys, strContains (pyLower k) "freq" = true →
      hasKey c1 k = true → hasKey c2 k = true →
      getVal c1 k ≠ getVal c2 k →
      (pyIntDec (getVal c2 k)).isSome ∧ (pyIntDec (getVal c1 k)).isSome) :
    ∃ t, diffKeys c1 c2 keys = .ok t := by
  induction keys with
  | nil => exact ⟨_, rfl⟩
  | cons k rest ih =>
    obtain ⟨t, ht⟩ := ih (fun k' hk' => h k' (List.mem_cons_of_mem _ hk'))
    unfold diffKeys
    by_cases hc1 : hasKey c1 k = true
    · by_cases hc2 : hasKey c2 k = true
      · by_cases heq : getVal c1 k = getVal c2 k
        · rw [if_neg (by simpa using hc1), if_neg (by simpa using hc2),
            if_neg (by simpa using heq)]
          exact ⟨t, ht⟩
        · obtain ⟨r, hr⟩ := config_recommendation_ok_of k
            (getVal c1 k) (getVal c2 k)
            (fun hf => h k (List.mem_cons_self k rest) hf hc1 hc2 heq)
          rw [if_neg (by simpa using hc1), if_neg (by simpa using hc2),
            if_pos (by simpa using heq), hr, ht]
          exact ⟨_, rfl⟩
      · rw [if_neg (by simpa using hc1), if_pos (by simpa using hc2), ht]
        exact ⟨_, rfl⟩
    · rw [if_pos (by simpa using hc1), ht]
      exact ⟨_, rfl⟩

/-- C3 amended: for every pair of config files, the comparison returns a
result — *provided* every Modified key containing `freq` has
integer-parseable old and new values; otherwise (see the counterexample)
the `int()` call raises and an error envelope is returned. -/
theorem C3_amended_no_error (lines1 lines2 : List String)
    (h : ∀ k ∈ sortedKeys (parse_config lines1) (parse_config lines2),
      strContains (pyLower k) "freq" = true →
      hasKey (parse_config lines1) k = true →
      hasKey (parse_config lines2) k = true →
      getVal (parse_config lines1) k ≠ getVal (parse_config lines2) k →
      (pyIntDec (getVal (parse_config lines2) k)).isSome ∧
        (pyIntDec (getVal (parse_config lines1) k)).isSome) :
    ∃ d, handle_compare_sdkconfig lines1 lines2 = .ok d := by
  obtain ⟨⟨a, r, m⟩, ht⟩ := diffKeys_ok (parse_config lines1)
    (parse_config lines2)
    (sortedKeys (parse_config lines1) (parse_config lines2)) h
  refine ⟨⟨(sortedKeys (parse_config lines1) (parse_config lines2)).length,
    a.length, r.length, m.length, a.take 50, r.take 50, m.take 100⟩, ?_⟩
  unfold handle_compare_sdkconfig compareConfigs
  dsimp only
  rw [ht]
  rfl

/-- Witness for the amended C3 theorem: a numeric `freq` modification
compares without error. -/
theorem C3_amended_witness :
    ∃ d, handle_compare_sdkconfig ["CONFIG_CPU_FREQ=80"]
      ["CONFIG_CPU_FREQ=240"] = .ok d :=
  C3_amended_no_error ["CONFIG_CPU_FREQ=80"] ["CONFIG_CPU_FREQ=240"]
    (by decide)

/-! ## C2 — device-log level filter and level counts -/

/-- C2 counterexample: on the single line `"E (1) t: m"` the coarse
substring detection sees no level word and counts the line as OTHER, and
only afterwards does the structured pattern resolve the level to ERROR;
so `level_counts["ERROR"] = 0` although exactly one entry resolves to
ERROR. -/
theorem C2_counterexample : ¬ deviceLogClaim := by
  intro h
  have hc := (h ["E (1) t: m"]).2
  exact absurd hc (by decide)

theorem bump_error_component (lc : LevelCounts) (lvl : String) :
    (lc.bump lvl).error = if lvl = "ERROR" then lc.error + 1 else lc.error := by
  unfold LevelCounts.bump
  by_cases h1 : lvl = "ERROR" <;> simp [h1] <;> (repeat' split) <;> rfl

theorem deviceLogScan_error_count (fl : String) (lines : List String) :
    (deviceLogScan fl lines).1.error = coarseErrorTotal lines := by
  induction lines with
  | nil => rfl
  | cons line rest ih =>
    unfold deviceLogScan coarseErrorTotal
    unfold coarseErrorTotal at ih
    cases hp : processDeviceLine line with
    | none => simpa [hp, List.countP_cons] using ih
    | some ce =>
      obtain ⟨coarse, e⟩ := ce
      simp only [hp, List.countP_cons, bump_error_component]
      by_cases hc : coarse = "ERROR" <;> simp [hc, ih]

theorem deviceLogScan_entries_level (fl : String) (hfl : fl ≠ "")
    (lines : List String) :
    ∀ e ∈ (deviceLogScan fl lines).2, e.level = fl := by
  induction lines with
  | nil => intro e he; simp [deviceLogScan] at he
  | cons line rest ih =>
    intro e he
    unfold deviceLogScan at he
    cases hp : processDeviceLine line with
    | none =>
      rw [hp] at he
      exact ih e he
    | some ce =>
      obtain ⟨coarse, e0⟩ := ce
      rw [hp] at he
      simp only at he
      by_cases hlvl : e0.level = fl
      · rw [if_pos (Or.inr hlvl)] at he
        rcases List.mem_cons.mp he with h | h
        · rw [h]; exact hlvl
        · exact ih e h
      · rw [if_neg (by simp [hfl, hlvl])] at he
        exact ih e he

/-- C2 amended: with filter `"ERROR"` only entries whose *resolved* level
is ERROR are retained, but `level_counts["ERROR"]` equals the number of
non-blank lines whose *coarse* level (substring detection before the
structured-pattern override) is ERROR — not the resolved-ERROR total the
spec describes. -/
theorem C2_amended_filter_and_counts (lines : List String) :
    (∀ e ∈ (handle_format_device_log lines "ERROR").entries,
      e.level = "ERROR") ∧
    (handle_format_device_log lines "ERROR").levelCounts.error =
      coarseErrorTotal lines := by
  have hup : pyUpper "ERROR" = "ERROR" := rfl
  constructor
  · intro e he
    unfold handle_format_device_log at he
    rw [hup] at he
    dsimp only at he
    cases hscan : deviceLogScan "ERROR" lines with
    | mk lc entries =>
      rw [hscan] at he
      dsimp only at he
      refine deviceLogScan_entries_level "ERROR" (by decide) lines e ?_
      rw [hscan]
      exact List.mem_of_mem_take he
  · unfold handle_format_device_log
    rw [hup]
    dsimp only
    cases hscan : deviceLogScan "ERROR" lines with
    | mk lc entries =>
      dsimp only
      have h2 := deviceLogScan_error_count "ERROR" lines
      rw [hscan] at h2
      exact h2

/-! ## C9 — unknown tool name inside the result envelope -/

theorem beq_jstr_iff (v : JVal) (t : String) :
    (v == JVal.jstr t) = true ↔ v = JVal.jstr t := by
  cases v <;> simp [(· == ·), JVal.beq]

/-- C9: a `tools/call` request whose `params.name` is a string that is not
a registered tool name produces a response whose `result` has
`isError: true` and a single text content `"Error: Unknown tool: <name>"`;
the failure is inside the result envelope (the response has a `result`
key, not a JSON-RPC `error` object). -/
theorem C9_unknown_tool (idfPath : Option String) (impl : ToolImpl)
    (req kvs : List (String × JVal)) (s : String)
    (hm : (pyDictGet req "method").getD (.jstr "") = .jstr "tools/call")
    (hp : (pyDictGet req "params").getD (.jobj []) = .jobj kvs)
    (hn : (pyDictGet kvs "name").getD (.jstr "") = .jstr s)
    (hs : s ∉ registeredToolNames) :
    handle_request idfPath impl req =
      .ok (some (.jobj [("jsonrpc", .jstr "2.0"),
        ("id", idOrNull (pyDictGet req "id")),
        ("result", .jobj
          [("content", .jarr [.jobj [("type", .jstr "text"),
             ("text", .jstr ("Error: Unknown tool: " ++ s))]]),
           ("isError", .jbool true)])])) := by
  have hexec : execute_tool impl (JVal.jstr s)
      ((pyDictGet kvs "arguments").getD (JVal.jobj [])) =
      .ok [("error", JVal.jstr ("Unknown tool: " ++ s))] := by
    unfold execute_tool
    dsimp only
    rw [if_neg hs]
  have hlit : "Error: " ++ "Unknown tool: " = "Error: Unknown tool: " := by
    decide
  have htext : "Error: " ++ ("Unknown tool: " ++ s) =
      "Error: Unknown tool: " ++ s := by
    rw [← String.append_assoc, hlit]
  unfold handle_request
  dsimp only
  rw [hm, hp]
  rw [show (JVal.jstr "tools/call" == JVal.jstr "initialize") = false from rfl]
  rw [show (JVal.jstr "tools/call" ==
    JVal.jstr "notifications/initialized") = false from rfl]
  rw [show (JVal.jstr "tools/call" == JVal.jstr "tools/list") = false from rfl]
  rw [show (JVal.jstr "tools/call" == JVal.jstr "tools/call") = true from rfl]
  simp only [Bool.false_eq_true, if_false, if_true]
  unfold handle_tools_call
  dsimp only
  rw [hn, hexec]
  simp only [show pyDictGet [("error", JVal.jstr ("Unknown tool: " ++ s))]
      "error" = some (JVal.jstr ("Unknown tool: " ++ s)) from rfl,
    Option.isSome_some, Option.getD_some, if_true]
  simp only [pyStr, htext]
  rfl

/-- Witness for C9 at a concrete unregistered name. -/
theorem C9_witness :
    handle_request none trivialImpl
      [("method", .jstr "tools/call"),
       ("params", .jobj [("name", .jstr "nope")])] =
      .ok (some (.jobj [("jsonrpc", .jstr "2.0"),
        ("id", idOrNull (pyDictGet
          [("method", JVal.jstr "tools/call"),
           ("params", JVal.jobj [("name", JVal.jstr "nope")])] "id")),
        ("result", .jobj
          [("content", .jarr [.jobj [("type", .jstr "text"),
             ("text", .jstr ("Error: Unknown tool: " ++ "nope"))]]),
           ("isError", .jbool true)])])) :=
  C9_unknown_tool none trivialImpl
    [("method", .jstr "tools/call"),
     ("params", .jobj [("name", .jstr "nope")])]
    [("name", .jstr "nope")] "nope" rfl rfl rfl (by decide)

/-! ## C1 — which requests produce a response -/

/-- C1 counterexample: the decoded request `{"method": "foo"}` has no
`id`, yet the server responds (with the method-not-found error and a null
id). -/
theorem C1_counterexample : ¬ noIdNoResponseClaim := by
  intro h
  have hc := h none trivialImpl [("method", .jstr "foo")] rfl
  exact absurd hc (by decide)

theorem execute_tool_ok (impl : ToolImpl) (name args : JVal)
    (h : unhashableName name = false) :
    ∃ r, execute_tool impl name args = .ok r := by
  cases name with
  | jarr xs => exact Bool.noConfusion h
  | jobj kvs => exact Bool.noConfusion h
  | jstr s =>
    unfold execute_tool
    dsimp only
    by_cases hs : s ∈ registeredToolNames
    · rw [if_pos hs]
      cases impl s args with
      | ok r => exact ⟨r, rfl⟩
      | error e => exact ⟨_, rfl⟩
    · rw [if_neg hs]
      exact ⟨_, rfl⟩
  | jnull => exact ⟨_, rfl⟩
  | jbool b => exact ⟨_, rfl⟩
  | jnum n => exact ⟨_, rfl⟩

theorem execute_tool_raises (impl : ToolImpl) (name args : JVal)
    (h : unhashableName name = true) :
    ∃ e, execute_tool impl name args = .error e := by
  cases name with
  | jarr xs => exact ⟨_, rfl⟩
  | jobj kvs => exact ⟨_, rfl⟩
  | jstr s => exact Bool.noConfusion h
  | jnull => exact Bool.noConfusion h
  | jbool b => exact Bool.noConfusion h
  | jnum n => exact Bool.noConfusion h

/-- C1 amended: a request without an `id` produces no response exactly
when its method is `notifications/initialized`, or when it is a
`tools/call` whose `params` is not a JSON object (the `params.get` call
raises `AttributeError`) or whose `params["name"]` decodes to a JSON
array or object (the `handlers.get(name)` lookup raises `TypeError`
before the `try`), both exceptions being swallowed by the `run` loop;
every other method produces a response with a null id. -/
theorem C1_amended_no_response_iff (idfPath : Option String)
    (impl : ToolImpl) (req : List (String × JVal))
    (hid : pyDictGet req "id" = none) :
    emitsResponse idfPath impl req = false ↔
      ((pyDictGet req "method").getD (.jstr "") ==
        .jstr "notifications/initialized") = true ∨
      (((pyDictGet req "method").getD (.jstr "") ==
        .jstr "tools/call") = true ∧
        ((∀ kvs, (pyDictGet req "params").getD (.jobj []) ≠ .jobj kvs) ∨
         (∃ kvs, (pyDictGet req "params").getD (.jobj []) = .jobj kvs ∧
           unhashableName ((pyDictGet kvs "name").getD (.jstr "")) =
             true))) := by
  unfold emitsResponse handle_request
  dsimp only
  by_cases h1 : ((pyDictGet req "method").getD (.jstr "") ==
      .jstr "initialize") = true
  · have hm := (beq_jstr_iff _ _).mp h1
    rw [if_pos h1]
    refine iff_of_false ?_ ?_
    · simp [handle_init_message, jvalTruthy]
    · rintro (hcon | ⟨hcon, -⟩) <;>
        (rw [hm] at hcon; exact absurd hcon (by decide))
  · rw [if_neg h1]
    by_cases h2 : ((pyDictGet req "method").getD (.jstr "") ==
        .jstr "notifications/initialized") = true
    · rw [if_pos h2]
      exact iff_of_true rfl (Or.inl h2)
    · rw [if_neg h2]
      by_cases h3 : ((pyDictGet req "method").getD (.jstr "") ==
          .jstr "tools/list") = true
      · have hm := (beq_jstr_iff _ _).mp h3
        rw [if_pos h3]
        refine iff_of_false ?_ ?_
        · simp [handle_tools_list, jvalTruthy]
        · rintro (hcon | ⟨hcon, -⟩) <;>
            (rw [hm] at hcon; exact absurd hcon (by decide))
      · rw [if_neg h3]
        by_cases h4 : ((pyDictGet req "method").getD (.jstr "") ==
            .jstr "tools/call") = true
        · have hm := (beq_jstr_iff _ _).mp h4
          rw [if_pos h4]
          cases hpar : (pyDictGet req "params").getD (.jobj []) with
          | jobj kvs =>
            by_cases hun : unhashableName
                ((pyDictGet kvs "name").getD (.jstr "")) = true
            · obtain ⟨e, he⟩ := execute_tool_raises impl
                ((pyDictGet kvs "name").getD (.jstr ""))
                ((pyDictGet kvs "arguments").getD (.jobj [])) hun
              have hcall : handle_tools_call impl (pyDictGet req "id")
                  (.jobj kvs) = .error e := by
                unfold handle_tools_call
                dsimp only
                rw [he]
              rw [hcall]
              exact iff_of_true rfl
                (Or.inr ⟨h4, Or.inr ⟨kvs, rfl, hun⟩⟩)
            · have hunf : unhashableName
                  ((pyDictGet kvs "name").getD (.jstr "")) = false := by
                cases hx : unhashableName
                    ((pyDictGet kvs "name").getD (.jstr "")) with
                | true => exact absurd hx hun
                | false => rfl
              obtain ⟨r, hr⟩ := execute_tool_ok impl
                ((pyDictGet kvs "name").getD (.jstr ""))
                ((pyDictGet kvs "arguments").getD (.jobj [])) hunf
              have hcall : ∃ x, handle_tools_call impl (pyDictGet req "id")
                  (.jobj kvs) =
                    .ok (.jobj (("jsonrpc", .jstr "2.0") :: x)) := by
                unfold handle_tools_call
                dsimp only
                rw [hr]
                exact ⟨_, rfl⟩
              obtain ⟨x, hcall⟩ := hcall
              rw [hcall]
              refine iff_of_false ?_ ?_
              · intro hfalse
                exact Bool.noConfusion (show true = false from hfalse)
              · rintro (hcon | ⟨-, hno | ⟨kvs2, heq, hun2⟩⟩)
                · rw [hm] at hcon; exact absurd hcon (by decide)
                · exact (hno kvs) rfl
                · cases JVal.jobj.inj heq
                  exact hun hun2
          | jnull =>
            exact iff_of_true rfl
              (Or.inr ⟨h4, Or.inl (fun kvs hkvs => JVal.noConfusion hkvs)⟩)
          | jbool b =>
            exact iff_of_true rfl
              (Or.inr ⟨h4, Or.inl (fun kvs hkvs => JVal.noConfusion hkvs)⟩)
          | jnum n =>
            exact iff_of_true rfl
              (Or.inr ⟨h4, Or.inl (fun kvs hkvs => JVal.noConfusion hkvs)⟩)
          | jstr t =>
            exact iff_of_true rfl
              (Or.inr ⟨h4, Or.inl (fun kvs hkvs => JVal.noConfusion hkvs)⟩)
          | jarr xs =>
            exact iff_of_true rfl
              (Or.inr ⟨h4, Or.inl (fun kvs hkvs => JVal.noConfusion hkvs)⟩)
        · rw [if_neg h4]
          refine iff_of_false ?_ ?_
          · simp [error_response, jvalTruthy]
          · rintro (hcon | ⟨hcon, -⟩)
            exacts [h2 hcon, h4 hcon]

/-- Witness for the amended C1 theorem: a no-id `tools/call` request whose
`name` is a JSON array (`handlers.get` raises `TypeError`) emits nothing. -/
theorem C1_amended_witness :
    emitsResponse none trivialImpl
      [("method", JVal.jstr "tools/call"),
       ("params", JVal.jobj [("name", JVal.jarr [])])] = false :=
  (C1_amended_no_response_iff none trivialImpl
    [("method", JVal.jstr "tools/call"),
     ("params", JVal.jobj [("name", JVal.jarr [])])] rfl).mpr
    (Or.inr ⟨rfl, Or.inr ⟨[("name", JVal.jarr [])], rfl, rfl⟩⟩)

/-! ## C5 — sdkconfig diff symmetry -/

theorem except_map_ok_inv {α β ε : Type} {f : α → β} {e : Except ε α}
    {y : β} (h : e.map f = .ok y) : ∃ x, e = .ok x ∧ f x = y := by
  cases e with
  | error err => simp [Except.map] at h
  | ok x => exact ⟨x, rfl, by simpa [Except.map] using h⟩

theorem hasKey_iff_mem (c : List (String × String)) (k : String) :
    hasKey c k = true ↔ k ∈ c.map Prod.fst := by
  unfold hasKey
  rw [List.any_eq_true]
  constructor
  · rintro ⟨p, hp, hpk⟩
    exact List.mem_map.mpr ⟨p, hp, of_decide_eq_true hpk⟩
  · intro hmem
    obtain ⟨p, hp, hpk⟩ := List.mem_map.mp hmem
    exact ⟨p, hp, decide_eq_true hpk⟩

theorem mem_sortedKeys_hasKey (c1 c2 : List (String × String)) (k : String)
    (hk : k ∈ sortedKeys c1 c2) :
    hasKey c1 k = true ∨ hasKey c2 k = true := by
  unfold sortedKeys at hk
  have hmem := (List.Perm.mem_iff (List.perm_insertionSort _ _)).mp hk
  rw [List.mem_dedup, List.mem_append] at hmem
  rcases hmem with h | h
  · exact Or.inl ((hasKey_iff_mem c1 k).mpr h)
  · exact Or.inr ((hasKey_iff_mem c2 k).mpr h)

theorem sortedKeys_comm (c1 c2 : List (String × String)) :
    sortedKeys c1 c2 = sortedKeys c2 c1 := by
  unfold sortedKeys
  refine List.eq_of_perm_of_sorted ?_ (List.sorted_insertionSort _ _)
    (List.sorted_insertionSort _ _)
  have p1 := List.perm_insertionSort (α := String) (· ≤ ·)
    ((c1.map Prod.fst ++ c2.map Prod.fst).dedup)
  have p3 := List.perm_insertionSort (α := String) (· ≤ ·)
    ((c2.map Prod.fst ++ c1.map Prod.fst).dedup)
  have p2 : ((c1.map Prod.fst ++ c2.map Prod.fst).dedup).Perm
      ((c2.map Prod.fst ++ c1.map Prod.fst).dedup) := by
    refine (List.perm_ext_iff_of_nodup (List.nodup_dedup _)
      (List.nodup_dedup _)).mpr ?_
    intro a
    simp only [List.mem_dedup, List.mem_append]
    exact Or.comm
  exact (p1.trans p2).trans p3.symm

theorem diffKeys_swap (c1 c2 : List (String × String)) (keys : List String)
    (hcov : ∀ k ∈ keys, hasKey c1 k = true ∨ hasKey c2 k = true) :
    ∀ {a1 r1 m1 a2 r2 m2},
    diffKeys c1 c2 keys = .ok (a1, r1, m1) →
    diffKeys c2 c1 keys = .ok (a2, r2, m2) →
    a1 = r2 ∧ r1 = a2 ∧ m1.map modSel = m2.map modSelSwap := by
  induction keys with
  | nil =>
    intro a1 r1 m1 a2 r2 m2 h12 h21
    unfold diffKeys at h12 h21
    have e12 := Except.ok.inj h12
    have e21 := Except.ok.inj h21
    obtain ⟨rfl, rfl, rfl⟩ : [] = a1 ∧ [] = r1 ∧ [] = m1 := by
      exact ⟨congrArg (fun p => p.1) e12,
        congrArg (fun p => p.2.1) e12, congrArg (fun p => p.2.2) e12⟩
    obtain ⟨rfl, rfl, rfl⟩ : [] = a2 ∧ [] = r2 ∧ [] = m2 := by
      exact ⟨congrArg (fun p => p.1) e21,
        congrArg (fun p => p.2.1) e21, congrArg (fun p => p.2.2) e21⟩
    exact ⟨rfl, rfl, rfl⟩
  | cons k rest ih =>
    intro a1 r1 m1 a2 r2 m2 h12 h21
    have hcovrest : ∀ k' ∈ rest, hasKey c1 k' = true ∨ hasKey c2 k' = true :=
      fun k' hk' => hcov k' (List.mem_cons_of_mem _ hk')
    unfold diffKeys at h12 h21
    by_cases hk1 : hasKey c1 k = true
    · by_cases hk2 : hasKey c2 k = true
      · rw [if_neg (not_not_intro hk1), if_neg (not_not_intro hk2)] at h12
        rw [if_neg (not_not_intro hk2), if_neg (not_not_intro hk1)] at h21
        by_cases heq : getVal c1 k = getVal c2 k
        · rw [if_neg (not_not_intro heq)] at h12
          rw [if_neg (not_not_intro heq.symm)] at h21
          exact ih hcovrest h12 h21
        · rw [if_pos heq] at h12
          rw [if_pos (Ne.symm heq)] at h21
          rcases hrec12 : config_recommendation k (getVal c1 k)
              (getVal c2 k) with e | rec1
          · rw [hrec12] at h12; exact Except.noConfusion h12
          rcases hrec21 : config_recommendation k (getVal c2 k)
              (getVal c1 k) with e | rec2
          · rw [hrec21] at h21; exact Except.noConfusion h21
          rw [hrec12] at h12
          rw [hrec21] at h21
          obtain ⟨⟨ar, rr, mr⟩, hrest12, hf12⟩ := except_map_ok_inv h12
          obtain ⟨⟨ar2, rr2, mr2⟩, hrest21, hf21⟩ := except_map_ok_inv h21
          obtain ⟨e1, e2, e3⟩ := ih hcovrest hrest12 hrest21
          obtain ⟨rfl, rfl, rfl⟩ : ar = a1 ∧ rr = r1 ∧ _ :: mr = m1 :=
            ⟨congrArg (fun p => p.1) hf12,
             congrArg (fun p => p.2.1) hf12,
             congrArg (fun p => p.2.2) hf12⟩
          obtain ⟨rfl, rfl, rfl⟩ : ar2 = a2 ∧ rr2 = r2 ∧ _ :: mr2 = m2 :=
            ⟨congrArg (fun p => p.1) hf21,
             congrArg (fun p => p.2.1) hf21,
             congrArg (fun p => p.2.2) hf21⟩
          refine ⟨e1, e2, ?_⟩
          simp only [List.map_cons, e3, modSel, modSelSwap]
      · -- k in c1 only: removed for (c1,c2), added for (c2,c1)
        rw [if_neg (not_not_intro hk1), if_pos hk2] at h12
        rw [if_pos hk2] at h21
        obtain ⟨⟨ar, rr, mr⟩, hrest12, hf12⟩ := except_map_ok_inv h12
        obtain ⟨⟨ar2, rr2, mr2⟩, hrest21, hf21⟩ := except_map_ok_inv h21
        obtain ⟨e1, e2, e3⟩ := ih hcovrest hrest12 hrest21
        obtain ⟨rfl, rfl, rfl⟩ : ar = a1 ∧ _ :: rr = r1 ∧ mr = m1 :=
          ⟨congrArg (fun p => p.1) hf12,
           congrArg (fun p => p.2.1) hf12,
           congrArg (fun p => p.2.2) hf12⟩
        obtain ⟨rfl, rfl, rfl⟩ : _ :: ar2 = a2 ∧ rr2 = r2 ∧ mr2 = m2 :=
          ⟨congrArg (fun p => p.1) hf21,
           congrArg (fun p => p.2.1) hf21,
           congrArg (fun p => p.2.2) hf21⟩
        exact ⟨e1, by rw [← e2], e3⟩
    · -- k in c2 only (coverage rules out neither): added / removed
      have hk2 : hasKey c2 k = true := by
        rcases hcov k (List.mem_cons_self k rest) with h | h
        · exact absurd h hk1
        · exact h
      rw [if_pos hk1] at h12
      rw [if_neg (not_not_intro hk2), if_pos hk1] at h21
      obtain ⟨⟨ar, rr, mr⟩, hrest12, hf12⟩ := except_map_ok_inv h12
      obtain ⟨⟨ar2, rr2, mr2⟩, hrest21, hf21⟩ := except_map_ok_inv h21
      obtain ⟨e1, e2, e3⟩ := ih hcovrest hrest12 hrest21
      obtain ⟨rfl, rfl, rfl⟩ : _ :: ar = a1 ∧ rr = r1 ∧ mr = m1 :=
        ⟨congrArg (fun p => p.1) hf12,
         congrArg (fun p => p.2.1) hf12,
         congrArg (fun p => p.2.2) hf12⟩
      obtain ⟨rfl, rfl, rfl⟩ : ar2 = a2 ∧ _ :: rr2 = r2 ∧ mr2 = m2 :=
        ⟨congrArg (fun p => p.1) hf21,
         congrArg (fun p => p.2.1) hf21,
         congrArg (fun p => p.2.2) hf21⟩
      exact ⟨by rw [← e1], e2, e3⟩

/-- C5: the sdkconfig diff is symmetric in construction: swapping the two
config mappings turns the Added list into the Removed list and vice versa
(entrywise, same values and categories), and the Modified list reappears
with old/new swapped (same keys, same order, same categories), with the
same key-set union and the same counts. -/
theorem C5_sdkconfig_diff_symmetric (c1 c2 : List (String × String))
    (d1 d2 : SdkconfigDiff)
    (h12 : compareConfigs c1 c2 = .ok d1)
    (h21 : compareConfigs c2 c1 = .ok d2) :
    d1.added = d2.removed ∧ d1.removed = d2.added ∧
    d1.modified.map modSel = d2.modified.map modSelSwap ∧
    d1.totalKeys = d2.totalKeys ∧
    d1.addedCount = d2.removedCount ∧
    d1.removedCount = d2.addedCount ∧
    d1.modifiedCount = d2.modifiedCount := by
  unfold compareConfigs at h12 h21
  obtain ⟨⟨a1, r1, m1⟩, hd12, hf12⟩ := except_map_ok_inv h12
  obtain ⟨⟨a2, r2, m2⟩, hd21, hf21⟩ := except_map_ok_inv h21
  rw [sortedKeys_comm c2 c1] at hd21
  obtain ⟨e1, e2, e3⟩ := diffKeys_swap c1 c2 (sortedKeys c1 c2)
    (mem_sortedKeys_hasKey c1 c2) hd12 hd21
  subst hf12
  subst hf21
  have hlen1 : a1.length = r2.length := by rw [e1]
  have hlen2 : r1.length = a2.length := by rw [e2]
  have hlen3 : m1.length = m2.length := by
    have hml := congrArg List.length e3
    simpa using hml
  dsimp only
  refine ⟨?_, ?_, ?_, ?_, ?_, ?_, ?_⟩
  · rw [e1]
  · rw [e2]
  · rw [List.map_take, List.map_take, e3]
  · rw [sortedKeys_comm c1 c2]
  · rw [hlen1]
  · rw [hlen2]
  · rw [hlen3]

/-- Witness for C5 at concrete configs with one added, one removed and
one modified key. -/
theorem C5_witness :
    compareConfigs [("A", "1")] [("A", "2")] =
      .ok ⟨1, 0, 0, 1, [], [], [⟨"A", "1", "2", "General", ""⟩]⟩ ∧
    compareConfigs [("A", "2")] [("A", "1")] =
      .ok ⟨1, 0, 0, 1, [], [], [⟨"A", "2", "1", "General", ""⟩]⟩ ∧
    ([⟨"A", "1", "2", "General", ""⟩] : List ModifiedEntry).map modSel =
      ([⟨"A", "2", "1", "General", ""⟩] : List ModifiedEntry).map modSelSwap := by
  refine ⟨rfl, rfl, ?_⟩
  exact (C5_sdkconfig_diff_symmetric [("A", "1")] [("A", "2")]
    ⟨1, 0, 0, 1, [], [], [⟨"A", "1", "2", "General", ""⟩]⟩
    ⟨1, 0, 0, 1, [], [], [⟨"A", "2", "1", "General", ""⟩]⟩ rfl rfl).2.2.1

/-! ## C8 — termination and value of the memoized depth computation -/

theorem foldl_max_init_le (l : List Nat) (acc : Nat) :
    acc ≤ l.foldl max acc := by
  induction l generalizing acc with
  | nil => exact Nat.le_refl acc
  | cons x t ih => exact le_trans (Nat.le_max_left acc x) (ih (max acc x))

theorem mem_le_foldl_max (l : List Nat) (x : Nat) :
    ∀ acc, x ∈ l → x ≤ l.foldl max acc := by
  induction l with
  | nil => intro acc hx; cases hx
  | cons y t ih =>
    intro acc hx
    simp only [List.foldl_cons]
    rcases List.mem_cons.mp hx with rfl | hmem
    · exact le_trans (Nat.le_max_right acc x) (foldl_max_init_le t _)
    · exact ih _ hmem

theorem depthPure_stable (deps : List (String × List String))
    (rank : String → Nat)
    (hr : ∀ n c, c ∈ cleanDeps deps n → rank c < rank n) :
    ∀ N n, rank n ≤ N → ∀ f g, rank n < f → rank n < g →
    depthPure deps f n = depthPure deps g n := by
  intro N
  induction N with
  | zero =>
    intro n hn f g hf hg
    obtain ⟨f', rfl⟩ : ∃ f', f = f' + 1 := ⟨f - 1, by omega⟩
    obtain ⟨g', rfl⟩ : ∃ g', g = g' + 1 := ⟨g - 1, by omega⟩
    simp only [depthPure]
    by_cases hds : (cleanDeps deps n).isEmpty = true
    · rw [if_pos hds, if_pos hds]
    · exfalso
      cases hd : cleanDeps deps n with
      | nil => rw [hd] at hds; exact hds rfl
      | cons c t =>
        have := hr n c (by rw [hd]; exact List.mem_cons_self c t)
        omega
  | succ N ihN =>
    intro n hn f g hf hg
    obtain ⟨f', rfl⟩ : ∃ f', f = f' + 1 := ⟨f - 1, by omega⟩
    obtain ⟨g', rfl⟩ : ∃ g', g = g' + 1 := ⟨g - 1, by omega⟩
    simp only [depthPure]
    by_cases hds : (cleanDeps deps n).isEmpty = true
    · rw [if_pos hds, if_pos hds]
    · rw [if_neg hds, if_neg hds]
      have hmap : (cleanDeps deps n).map (depthPure deps f') =
          (cleanDeps deps n).map (depthPure deps g') := by
        apply List.map_congr_left
        intro c hc
        have hcr := hr n c hc
        exact ihN c (by omega) f' g' (by omega) (by omega)
      rw [hmap]

/-- Leaf value of the specification depth at sufficient fuel. -/
theorem depthPure_succ_leaf (deps : List (String × List String))
    (n : String) (fuel : Nat) (hleaf : lookupDeps deps n = []) :
    depthPure deps (fuel + 1) n = 0 := by
  have hcd : cleanDeps deps n = [] := by
    unfold cleanDeps
    rw [hleaf]
    rfl
  have hunf : depthPure deps (fuel + 1) n =
      if (cleanDeps deps n).isEmpty then 0
      else 1 + ((cleanDeps deps n).map (depthPure deps fuel)).foldl max 0 :=
    rfl
  rw [hunf, hcd]
  rfl

/-- Non-leaf value of the specification depth at fuel `rank n + 1`,
rephrased with each child at its own sufficient fuel. -/
theorem depthPure_succ_nonleaf (deps : List (String × List String))
    (rank : String → Nat)
    (hr : ∀ n c, c ∈ cleanDeps deps n → rank c < rank n)
    (n : String) (hne : ¬ (cleanDeps deps n).isEmpty = true) :
    depthPure deps (rank n + 1) n =
      1 + ((cleanDeps deps n).map
        (fun c => depthPure deps (rank c + 1) c)).foldl max 0 := by
  have hunf : depthPure deps (rank n + 1) n =
      if (cleanDeps deps n).isEmpty then 0
      else 1 + ((cleanDeps deps n).map
        (depthPure deps (rank n))).foldl max 0 := rfl
  rw [hunf, if_neg hne]
  have hmap : (cleanDeps deps n).map (depthPure deps (rank n)) =
      (cleanDeps deps n).map (fun c => depthPure deps (rank c + 1) c) := by
    apply List.map_congr_left
    intro c hc
    have hcr := hr n c hc
    exact depthPure_stable deps rank hr (rank c) c (Nat.le_refl _)
      (rank n) (rank c + 1) (by omega) (by omega)
  rw [hmap]

theorem depthFold_computes (deps : List (String × List String))
    (rank : String → Nat) (fuel N : Nat)
    (IH : ∀ n memo, rank n ≤ N → rank n < fuel →
      memoSound deps rank memo →
      ∃ memo2, get_depth deps fuel memo n =
        some (depthPure deps (rank n + 1) n, memo2) ∧
        memoSound deps rank memo2) :
    ∀ pending memo acc,
      (∀ d ∈ pending, rank (cleanDep d) ≤ N ∧ rank (cleanDep d) < fuel) →
      memoSound deps rank memo →
      ∃ memo2, depthFold (get_depth deps fuel) pending memo acc =
        some ((pending.map (fun d =>
          depthPure deps (rank (cleanDep d) + 1) (cleanDep d))).foldl
            max acc, memo2) ∧
        memoSound deps rank memo2 := by
  intro pending
  induction pending with
  | nil => intro memo acc _ hm; exact ⟨memo, rfl, hm⟩
  | cons d more ihp =>
    intro memo acc h hm
    obtain ⟨hdN, hdf⟩ := h d (List.mem_cons_self d more)
    obtain ⟨memo2, hgd, hm2⟩ := IH (cleanDep d) memo hdN hdf hm
    obtain ⟨memo3, hfold, hm3⟩ := ihp memo2
      (max acc (depthPure deps (rank (cleanDep d) + 1) (cleanDep d)))
      (fun d' hd' => h d' (List.mem_cons_of_mem _ hd')) hm2
    refine ⟨memo3, ?_, hm3⟩
    unfold depthFold
    rw [hgd]
    simp only [List.map_cons, List.foldl_cons]
    exact hfold

theorem get_depth_computes (deps : List (String × List String))
    (rank : String → Nat)
    (hr : ∀ n c, c ∈ cleanDeps deps n → rank c < rank n) :
    ∀ N n memo fuel, rank n ≤ N → memoSound deps rank memo →
      rank n < fuel →
    ∃ memo2, get_depth deps fuel memo n =
      some (depthPure deps (rank n + 1) n, memo2) ∧
      memoSound deps rank memo2 := by
  intro N
  induction N with
  | zero =>
    intro n memo fuel hn hm hf
    obtain ⟨f, rfl⟩ : ∃ f, fuel = f + 1 := ⟨fuel - 1, by omega⟩
    simp only [get_depth]
    cases hfind : memo.find? (fun p => p.1 = n) with
    | some p =>
      have hp : p ∈ memo := List.mem_of_find?_eq_some hfind
      have hpk : p.1 = n := by simpa using List.find?_some hfind
      refine ⟨memo, ?_, hm⟩
      dsimp only
      have hv := hm p hp
      rw [hpk] at hv
      rw [hv]
    | none =>
      by_cases hleaf : (lookupDeps deps n).isEmpty = true
      · rw [if_pos hleaf]
        refine ⟨memo, ?_, hm⟩
        rw [depthPure_succ_leaf deps n (rank n) (List.isEmpty_iff.mp hleaf)]
      · exfalso
        cases hd : lookupDeps deps n with
        | nil => rw [hd] at hleaf; exact hleaf rfl
        | cons d t =>
          have hmem : cleanDep d ∈ cleanDeps deps n := by
            unfold cleanDeps
            rw [hd]
            exact List.mem_map_of_mem cleanDep (List.mem_cons_self d t)
          have := hr n (cleanDep d) hmem
          omega
  | succ N ihN =>
    intro n memo fuel hn hm hf
    obtain ⟨f, rfl⟩ : ∃ f, fuel = f + 1 := ⟨fuel - 1, by omega⟩
    simp only [get_depth]
    cases hfind : memo.find? (fun p => p.1 = n) with
    | some p =>
      have hp : p ∈ memo := List.mem_of_find?_eq_some hfind
      have hpk : p.1 = n := by simpa using List.find?_some hfind
      refine ⟨memo, ?_, hm⟩
      dsimp only
      have hv := hm p hp
      rw [hpk] at hv
      rw [hv]
    | none =>
      by_cases hleaf : (lookupDeps deps n).isEmpty = true
      · rw [if_pos hleaf]
        refine ⟨memo, ?_, hm⟩
        rw [depthPure_succ_leaf deps n (rank n) (List.isEmpty_iff.mp hleaf)]
      · rw [if_neg hleaf]
        have hchild : ∀ d ∈ lookupDeps deps n,
            rank (cleanDep d) ≤ N ∧ rank (cleanDep d) < f := by
          intro d hd
          have hmem : cleanDep d ∈ cleanDeps deps n :=
            List.mem_map_of_mem cleanDep hd
          have := hr n (cleanDep d) hmem
          constructor <;> omega
        obtain ⟨memo2, hfold, hm2⟩ := depthFold_computes deps rank f N
          (fun n' memo' hN' hf' hm' => ihN n' memo' f hN' hm' hf')
          (lookupDeps deps n) memo 0 hchild hm
        rw [hfold]
        have hval : ((lookupDeps deps n).map (fun d =>
            depthPure deps (rank (cleanDep d) + 1) (cleanDep d))).foldl
              max 0 + 1 =
            depthPure deps (rank n + 1) n := by
          rw [depthPure_succ_nonleaf deps rank hr n (by
            unfold cleanDeps
            intro hcon
            rw [List.isEmpty_iff] at hcon
            rw [List.map_eq_nil_iff] at hcon
            rw [hcon] at hleaf
            exact hleaf rfl)]
          unfold cleanDeps
          rw [List.map_map]
          simp only [Function.comp_def]
          omega
        refine ⟨memo2 ++ [(n, ((lookupDeps deps n).map (fun d =>
            depthPure deps (rank (cleanDep d) + 1)
              (cleanDep d))).foldl max 0 + 1)], ?_, ?_⟩
        · dsimp only
          rw [hval]
        · intro p hp
          rcases List.mem_append.mp hp with h | h
          · exact hm2 p h
          · have hpe : p = (n, ((lookupDeps deps n).map (fun d =>
                depthPure deps (rank (cleanDep d) + 1)
                  (cleanDep d))).foldl max 0 + 1) := by
              simpa using h
            rw [hpe]
            simpa using hval

theorem maxDepthDriver_isSome (deps : List (String × List String))
    (rank : String → Nat)
    (hr : ∀ n c, c ∈ cleanDeps deps n → rank c < rank n) (fuel : Nat) :
    ∀ keys memo acc, memoSound deps rank memo →
      (∀ k ∈ keys, rank k < fuel) →
    (maxDepthDriver deps fuel keys memo acc).isSome = true := by
  intro keys
  induction keys with
  | nil => intro memo acc _ _; rfl
  | cons k ks ih =>
    intro memo acc hm hk
    obtain ⟨memo2, hgd, hm2⟩ := get_depth_computes deps rank hr (rank k)
      k memo fuel (Nat.le_refl _) hm (hk k (List.mem_cons_self k ks))
    unfold maxDepthDriver
    rw [hgd]
    exact ih memo2 _ hm2 (fun k' hk' => hk k' (List.mem_cons_of_mem _ hk'))

/-- C8: for every dependency mapping whose (cleaned) edge relation is
acyclic — witnessed by a rank function decreasing along edges — the
memoized depth computation terminates (some fuel bound makes the whole
driver return a value); under that precondition and a sound memo, a node
with no declared dependencies always computes depth 0, and every other
node computes depth `1 + max` of its cleaned dependencies' depths. -/
theorem C8_memoized_depth_terminates_and_values
    (deps : List (String × List String)) (rank : String → Nat)
    (hr : ∀ n c, c ∈ cleanDeps deps n → rank c < rank n) :
    (∃ fuel, (calculate_max_depth deps fuel).isSome = true) ∧
    (∀ n fuel memo, lookupDeps deps n = [] → rank n < fuel →
      memoSound deps rank memo →
      ∃ memo2, get_depth deps fuel memo n = some (0, memo2)) ∧
    (∀ n fuel memo, lookupDeps deps n ≠ [] → rank n < fuel →
      memoSound deps rank memo →
      ∃ memo2, get_depth deps fuel memo n =
        some (1 + ((cleanDeps deps n).map
          (fun c => depthPure deps (rank c + 1) c)).foldl max 0,
          memo2)) := by
  refine ⟨?_, ?_, ?_⟩
  · refine ⟨((deps.map Prod.fst).map rank).foldl max 0 + 1, ?_⟩
    unfold calculate_max_depth
    apply maxDepthDriver_isSome deps rank hr _ _ [] 0
      (fun p hp => absurd hp (List.not_mem_nil p))
    intro k hk
    have : rank k ≤ ((deps.map Prod.fst).map rank).foldl max 0 :=
      mem_le_foldl_max _ _ 0 (List.mem_map_of_mem rank hk)
    omega
  · intro n fuel memo hleaf hf hm
    obtain ⟨memo2, hgd, -⟩ :=
      get_depth_computes deps rank hr (rank n) n memo fuel
        (Nat.le_refl _) hm hf
    refine ⟨memo2, ?_⟩
    rw [hgd]
    rw [show depthPure deps (rank n + 1) n = 0 from
      depthPure_succ_leaf deps n (rank n) hleaf]
  · intro n fuel memo hne hf hm
    obtain ⟨memo2, hgd, -⟩ :=
      get_depth_computes deps rank hr (rank n) n memo fuel
        (Nat.le_refl _) hm hf
    refine ⟨memo2, ?_⟩
    rw [hgd]
    rw [depthPure_succ_nonleaf deps rank hr n (by
      unfold cleanDeps
      intro hcon
      rw [List.isEmpty_iff, List.map_eq_nil_iff] at hcon
      exact hne hcon)]

/-- Witness for C8 at a concrete acyclic mapping
`a → {b, c}, c → b` with rank a=2, c=1, otherwise 0. -/
theorem C8_witness :
    (∃ fuel, (calculate_max_depth
      [("a", ["b", "c"]), ("c", ["b"])] fuel).isSome = true) ∧
    calculate_max_depth [("a", ["b", "c"]), ("c", ["b"])] 4 = some 2 := by
  constructor
  · refine (C8_memoized_depth_terminates_and_values
      [("a", ["b", "c"]), ("c", ["b"])]
      (fun n => if n = "a" then 2 else if n = "c" then 1 else 0) ?_).1
    intro n c hc
    by_cases hna : n = "a"
    · subst hna
      rw [show cleanDeps [("a", ["b", "c"]), ("c", ["b"])] "a" =
        ["b", "c"] from by decide] at hc
      have hcc : c = "b" ∨ c = "c" := by simpa using hc
      rcases hcc with rfl | rfl <;> decide
    · by_cases hnc : n = "c"
      · subst hnc
        rw [show cleanDeps [("a", ["b", "c"]), ("c", ["b"])] "c" =
          ["b"] from by decide] at hc
        have hcc : c = "b" := by simpa using hc
        subst hcc
        decide
      · exfalso
        have hemp : cleanDeps [("a", ["b", "c"]), ("c", ["b"])] n = [] := by
          unfold cleanDeps lookupDeps
          rw [show (([("a", ["b", "c"]), ("c", ["b"])] :
              List (String × List String)).find?
                (fun p => p.1 = n)) = none from ?_]
          · rfl
          · apply List.find?_eq_none.mpr
            intro p hp
            rcases List.mem_cons.mp hp with rfl | hp2
            · simpa using fun hcon => hna hcon.symm
            · rcases List.mem_cons.mp hp2 with rfl | hp3
              · simpa using fun hcon => hnc hcon.symm
              · exact absurd hp3 (List.not_mem_nil p)
        rw [hemp] at hc
        exact absurd hc (List.not_mem_nil c)
  · decide

/-! ## C7 — mutual dependencies are reported in a common cycle

Throughout, the DFS state is (`recStack`, `visited`, `circular`); the
invariant tying the recursion stack to the current path (`x ∈ recStack ↔
x ∈ path`) mirrors how the Python code maintains `rec_stack` alongside
the `path` argument. -/

theorem dfsFold_recStack
    (visit : String → List String → List String → List String →
      List (List String) →
      Option (List String × List String × List (List String) × Bool))
    (hv : ∀ n p rs vis circ out, visit n p rs vis circ = some out →
      out.1 = rs) :
    ∀ pending node path rs vis circ out,
      dfsFold visit node path pending rs vis circ = some out →
      out.1 = rs := by
  intro pending
  induction pending with
  | nil =>
    intro node path rs vis circ out h
    cases Option.some.inj h
    rfl
  | cons d more ih =>
    intro node path rs vis circ out h
    unfold dfsFold at h
    cases hc : visit (cleanDep d) (path ++ [node]) rs vis circ with
    | none => rw [hc] at h; exact Option.noConfusion h
    | some st =>
      rw [hc] at h
      obtain ⟨rs1, vis1, circ1, b1⟩ := st
      have h1 : rs1 = rs := hv _ _ _ _ _ _ hc
      have h2 := ih node path rs1 vis1 circ1 out h
      rw [h1] at h2
      exact h2

theorem dfsNode_recStack (deps : List (String × List String)) :
    ∀ fuel node path rs vis circ out,
      dfsNode deps fuel node path rs vis circ = some out →
      out.1 = rs := by
  intro fuel
  induction fuel with
  | zero => intro node path rs vis circ out h; exact Option.noConfusion h
  | succ f ih =>
    intro node path rs vis circ out h
    unfold dfsNode at h
    by_cases h1 : node ∈ rs
    · rw [if_pos h1] at h
      cases Option.some.inj h
      rfl
    · rw [if_neg h1] at h
      by_cases h2 : node ∈ vis
      · rw [if_pos h2] at h
        cases Option.some.inj h
        rfl
      · rw [if_neg h2] at h
        cases hfold : dfsFold (dfsNode deps f) node path
            (lookupDeps deps node) (node :: rs) (vis ++ [node]) circ with
        | none => rw [hfold] at h; exact Option.noConfusion h
        | some st =>
          rw [hfold] at h
          obtain ⟨rs1, vis1, circ1⟩ := st
          have hrs1 : rs1 = node :: rs :=
            dfsFold_recStack (dfsNode deps f)
              (fun n p rs' vis' circ' out' hout' => ih n p rs' vis' circ' out' hout')
              (lookupDeps deps node) node path (node :: rs)
              (vis ++ [node]) circ (rs1, vis1, circ1) hfold
          cases Option.some.inj h
          subst hrs1
          exact List.erase_cons_head node rs

theorem dfsFold_mono
    (visit : String → List String → List String → List String →
      List (List String) →
      Option (List String × List String × List (List String) × Bool))
    (hv : ∀ n p rs vis circ out, visit n p rs vis circ = some out →
      (∀ x ∈ vis, x ∈ out.2.1) ∧ ∃ ext, out.2.2.1 = circ ++ ext) :
    ∀ pending node path rs vis circ out,
      dfsFold visit node path pending rs vis circ = some out →
      (∀ x ∈ vis, x ∈ out.2.1) ∧ ∃ ext, out.2.2 = circ ++ ext := by
  intro pending
  induction pending with
  | nil =>
    intro node path rs vis circ out h
    cases Option.some.inj h
    exact ⟨fun x hx => hx, [], by simp⟩
  | cons d more ih =>
    intro node path rs vis circ out h
    unfold dfsFold at h
    cases hc : visit (cleanDep d) (path ++ [node]) rs vis circ with
    | none => rw [hc] at h; exact Option.noConfusion h
    | some st =>
      rw [hc] at h
      obtain ⟨rs1, vis1, circ1, b1⟩ := st
      obtain ⟨hm1, ext1, hext1⟩ := hv _ _ _ _ _ _ hc
      obtain ⟨hm2, ext2, hext2⟩ := ih node path rs1 vis1 circ1 out h
      refine ⟨fun x hx => hm2 x (hm1 x hx), ext1 ++ ext2, ?_⟩
      rw [hext2]
      simp only at hext1
      rw [hext1, List.append_assoc]

theorem dfsNode_mono (deps : List (String × List String)) :
    ∀ fuel node path rs vis circ out,
      dfsNode deps fuel node path rs vis circ = some out →
      (∀ x ∈ vis, x ∈ out.2.1) ∧ ∃ ext, out.2.2.1 = circ ++ ext := by
  intro fuel
  induction fuel with
  | zero => intro node path rs vis circ out h; exact Option.noConfusion h
  | succ f ih =>
    intro node path rs vis circ out h
    unfold dfsNode at h
    by_cases h1 : node ∈ rs
    · rw [if_pos h1] at h
      cases Option.some.inj h
      exact ⟨fun x hx => hx, [_], rfl⟩
    · rw [if_neg h1] at h
      by_cases h2 : node ∈ vis
      · rw [if_pos h2] at h
        cases Option.some.inj h
        exact ⟨fun x hx => hx, [], by simp⟩
      · rw [if_neg h2] at h
        cases hfold : dfsFold (dfsNode deps f) node path
            (lookupDeps deps node) (node :: rs) (vis ++ [node]) circ with
        | none => rw [hfold] at h; exact Option.noConfusion h
        | some st =>
          rw [hfold] at h
          obtain ⟨rs1, vis1, circ1⟩ := st
          obtain ⟨hm, ext, hext⟩ := dfsFold_mono (dfsNode deps f)
            (fun n p rs' vis' circ' out' hout' => ih n p rs' vis' circ' out' hout')
            (lookupDeps deps node) node path (node :: rs)
            (vis ++ [node]) circ (rs1, vis1, circ1) hfold
          cases Option.some.inj h
          exact ⟨fun x hx => hm x (by simp [hx]), ext, hext⟩

theorem cycleWith_mono (a b : String) (circ : List (List String))
    (ext : List (List String)) (h : cycleWith a b circ) :
    cycleWith a b (circ ++ ext) := by
  obtain ⟨cyc, hc, ha, hb⟩ := h
  exact ⟨cyc, List.mem_append.mpr (Or.inl hc), ha, hb⟩

theorem key_mem_universe (deps : List (String × List String)) (k : String)
    (hk : k ∈ deps.map Prod.fst) : k ∈ depUniverse deps := by
  unfold depUniverse
  rw [List.mem_dedup, List.mem_append]
  exact Or.inl hk

theorem cleanDep_mem_universe (deps : List (String × List String))
    (node d : String) (hd : d ∈ lookupDeps deps node) :
    cleanDep d ∈ depUniverse deps := by
  unfold depUniverse
  rw [List.mem_dedup, List.mem_append]
  right
  unfold lookupDeps at hd
  cases hfind : deps.find? (fun p => p.1 = node) with
  | none => rw [hfind] at hd; exact absurd hd (List.not_mem_nil d)
  | some p =>
    rw [hfind] at hd
    have hp : p ∈ deps := List.mem_of_find?_eq_some hfind
    refine List.mem_map_of_mem cleanDep ?_
    rw [List.mem_flatten]
    exact ⟨p.2, List.mem_map_of_mem Prod.snd hp, hd⟩

theorem dfsFold_isSome
    (visit : String → List String → List String → List String →
      List (List String) →
      Option (List String × List String × List (List String) × Bool))
    (hrestore : ∀ n p rs vis circ out, visit n p rs vis circ = some out →
      out.1 = rs)
    (node : String) (path pc : List String) (hpc : pc = path ++ [node])
    (hsome : ∀ n rs vis circ, (∀ x, x ∈ rs ↔ x ∈ pc) →
      (visit n pc rs vis circ).isSome = true) :
    ∀ pending rs vis circ, (∀ x, x ∈ rs ↔ x ∈ pc) →
      (dfsFold visit node path pending rs vis circ).isSome = true := by
  intro pending
  induction pending with
  | nil => intro rs vis circ _; rfl
  | cons d more ih =>
    intro rs vis circ hrs
    unfold dfsFold
    rw [← hpc]
    cases hc : visit (cleanDep d) pc rs vis circ with
    | none =>
      have := hsome (cleanDep d) rs vis circ hrs
      rw [hc] at this
      exact absurd this (by simp)
    | some st =>
      obtain ⟨rs1, vis1, circ1, b1⟩ := st
      have h1 : rs1 = rs := hrestore _ _ _ _ _ _ hc
      subst h1
      exact ih rs1 vis1 circ1 hrs

theorem dfsNode_isSome (deps : List (String × List String)) :
    ∀ fuel node path rs vis circ,
      node ∈ depUniverse deps →
      path.Nodup → (∀ x ∈ path, x ∈ depUniverse deps) →
      (∀ x, x ∈ rs ↔ x ∈ path) →
      (depUniverse deps).length + 1 ≤ fuel + path.length →
      (dfsNode deps fuel node path rs vis circ).isSome = true := by
  intro fuel
  induction fuel with
  | zero =>
    intro node path rs vis circ hnode hnd hsub hrs hfuel
    exfalso
    have hle : path.length ≤ (depUniverse deps).length :=
      (List.subperm_of_subset hnd (fun x hx => hsub x hx)).length_le
    omega
  | succ f ih =>
    intro node path rs vis circ hnode hnd hsub hrs hfuel
    unfold dfsNode
    by_cases h1 : node ∈ rs
    · rw [if_pos h1]; rfl
    · rw [if_neg h1]
      by_cases h2 : node ∈ vis
      · rw [if_pos h2]; rfl
      · rw [if_neg h2]
        have hnp : node ∉ path := fun hc => h1 ((hrs node).mpr hc)
        have hfold := dfsFold_isSome (dfsNode deps f)
          (fun n p rs' vis' circ' out' hout' =>
            dfsNode_recStack deps f n p rs' vis' circ' out' hout')
          node path (path ++ [node]) rfl
          (fun n rs' vis' circ' hrs' => ?_)
          (lookupDeps deps node) (node :: rs) (vis ++ [node]) circ ?_
        · cases hf : dfsFold (dfsNode deps f) node path
              (lookupDeps deps node) (node :: rs) (vis ++ [node]) circ with
          | none => rw [hf] at hfold; exact absurd hfold (by simp)
          | some st => obtain ⟨a, b, c⟩ := st; rfl
        · -- the child calls are covered by the induction hypothesis,
          -- except that the child node may be any string; a child outside
          -- the universe still... (children are always in the universe
          -- when they come from the pending list, but this generic form
          -- must handle any n — handled below by a direct case split)
          by_cases hn : n ∈ depUniverse deps
          · exact ih n (path ++ [node]) rs' vis' circ' hn
              (by simp [List.nodup_append, hnd, hnp])
              (by intro x hx
                  rcases List.mem_append.mp hx with h | h
                  · exact hsub x h
                  · rw [List.mem_singleton.mp h]; exact hnode)
              hrs'
              (by simp only [List.length_append, List.length_cons,
                    List.length_nil]
                  omega)
          · -- a child outside the universe: it cannot be fresh with
            -- dependencies, so the call returns in one step; fuel ≥ 1
            obtain ⟨f', rfl⟩ : ∃ f', f = f' + 1 := by
              have hle : (path ++ [node]).length ≤
                  (depUniverse deps).length := by
                refine (List.subperm_of_subset ?_ ?_).length_le
                · simp [List.nodup_append, hnd, hnp]
                · intro x hx
                  rcases List.mem_append.mp hx with h | h
                  · exact hsub x h
                  · rw [List.mem_singleton.mp h]; exact hnode
              refine ⟨f - 1, ?_⟩
              simp only [List.length_append, List.length_cons,
                List.length_nil] at hle ⊢
              omega
            unfold dfsNode
            by_cases hn1 : n ∈ rs'
            · rw [if_pos hn1]; rfl
            · rw [if_neg hn1]
              by_cases hn2 : n ∈ vis'
              · rw [if_pos hn2]; rfl
              · rw [if_neg hn2]
                have hlook : lookupDeps deps n = [] := by
                  unfold lookupDeps
                  cases hfind : deps.find? (fun p => p.1 = n) with
                  | none => rfl
                  | some p =>
                    exfalso
                    apply hn
                    apply key_mem_universe
                    have hp : p ∈ deps := List.mem_of_find?_eq_some hfind
                    have hpk : p.1 = n := by
                      simpa using List.find?_some hfind
                    rw [← hpk]
                    exact List.mem_map_of_mem Prod.fst hp
                rw [hlook]
                rfl
        · intro x
          constructor
          · intro hx
            rcases List.mem_cons.mp hx with rfl | hx2
            · exact List.mem_append.mpr (Or.inr (List.mem_singleton.mpr rfl))
            · exact List.mem_append.mpr (Or.inl ((hrs x).mp hx2))
          · intro hx
            rcases List.mem_append.mp hx with hx2 | hx2
            · exact List.mem_cons.mpr (Or.inr ((hrs x).mpr hx2))
            · rw [List.mem_singleton.mp hx2]
              exact List.mem_cons_self node rs

theorem detectDriver_isSome (deps : List (String × List String)) :
    ∀ keys vis circ, (∀ k ∈ keys, k ∈ depUniverse deps) →
      (detectDriver deps (depFuel deps) keys ([], vis, circ)).isSome
        = true := by
  intro keys
  induction keys with
  | nil => intro vis circ _; rfl
  | cons k ks ih =>
    intro vis circ hk
    unfold detectDriver
    have hsome := dfsNode_isSome deps (depFuel deps) k [] [] vis circ
      (hk k (List.mem_cons_self k ks)) List.nodup_nil
      (fun x hx => absurd hx (List.not_mem_nil x))
      (fun x => Iff.rfl)
      (by unfold depFuel; simp)
    cases hdfs : dfsNode deps (depFuel deps) k [] [] vis circ with
    | none => rw [hdfs] at hsome; exact absurd hsome (by simp)
    | some st =>
      obtain ⟨rs1, vis1, circ1, b1⟩ := st
      have hrs1 : rs1 = [] :=
        dfsNode_recStack deps (depFuel deps) k [] [] vis circ _ hdfs
      subst hrs1
      exact ih vis1 circ1 (fun k' hk' => hk k' (List.mem_cons_of_mem _ hk'))

/-- The cycle recorded when the DFS re-encounters `a` on the recursion
stack, from a call whose path is `path ++ [b]` with `a ∈ path`, contains
both `a` and `b`. -/
theorem cycle_slice_contains (a b : String) (path : List String)
    (ha : a ∈ path) :
    a ∈ (path ++ [b]).drop ((path ++ [b]).indexOf a) ++ [a] ∧
    b ∈ (path ++ [b]).drop ((path ++ [b]).indexOf a) ++ [a] := by
  constructor
  · exact List.mem_append.mpr (Or.inr (List.mem_singleton.mpr rfl))
  · have hidx : (path ++ [b]).indexOf a = path.indexOf a :=
      List.indexOf_append_of_mem ha
    have hlt : path.indexOf a < path.length :=
      List.indexOf_lt_length.mpr ha
    rw [hidx, List.drop_append_of_le_length (by omega)]
    exact List.mem_append.mpr
      (Or.inl (List.mem_append.mpr (Or.inr (List.mem_singleton.mpr rfl))))

/-- When the pending dependencies of node `b` include an edge to a node
`a` already on the recursion stack (and on the path), a cycle containing
both `a` and `b` is recorded by the time the loop finishes. -/
theorem dfsFold_hit (deps : List (String × List String)) (a b : String)
    (f : Nat) (path : List String) :
    ∀ pending rs vis circ out,
      dfsFold (dfsNode deps f) b path pending rs vis circ = some out →
      a ∈ rs → a ∈ path → (∃ d ∈ pending, cleanDep d = a) →
      cycleWith a b out.2.2 := by
  intro pending
  induction pending with
  | nil =>
    intro rs vis circ out h hars hapath hex
    obtain ⟨d, hd, -⟩ := hex
    exact absurd hd (List.not_mem_nil d)
  | cons d more ih =>
    intro rs vis circ out h hars hapath hex
    unfold dfsFold at h
    cases hc : dfsNode deps f (cleanDep d) (path ++ [b]) rs vis circ with
    | none => rw [hc] at h; exact Option.noConfusion h
    | some st =>
      rw [hc] at h
      obtain ⟨rs1, vis1, circ1, b1⟩ := st
      have hrs1 : rs1 = rs := dfsNode_recStack deps f _ _ _ _ _ _ hc
      by_cases hda : cleanDep d = a
      · -- this edge closes the cycle
        rw [hda] at hc
        obtain ⟨f', rfl⟩ : ∃ f', f = f' + 1 := by
          cases f with
          | zero => exact Option.noConfusion hc
          | succ f' => exact ⟨f', rfl⟩
        unfold dfsNode at hc
        rw [if_pos hars] at hc
        have hinj := Option.some.inj hc
        have hcirc1 : circ1 = circ ++
            [(path ++ [b]).drop ((path ++ [b]).indexOf a) ++ [a]] :=
          (congrArg (fun st => st.2.2.1) hinj).symm
        obtain ⟨hma, hmb⟩ := cycle_slice_contains a b path hapath
        have hcw : cycleWith a b circ1 := by
          rw [hcirc1]
          exact ⟨_, List.mem_append.mpr
            (Or.inr (List.mem_singleton.mpr rfl)), hma, hmb⟩
        obtain ⟨-, ext, hext⟩ := dfsFold_mono (dfsNode deps (f' + 1))
          (fun n p rs' vis' circ' out' hout' =>
            dfsNode_mono deps (f' + 1) n p rs' vis' circ' out' hout')
          more b path rs1 vis1 circ1 out h
        rw [hext]
        exact cycleWith_mono a b circ1 ext hcw
      · -- the closing edge is further down the list
        obtain ⟨d0, hd0, hd0a⟩ := hex
        rcases List.mem_cons.mp hd0 with rfl | hd0m
        · exact absurd hd0a hda
        · subst hrs1
          exact ih rs1 vis1 circ1 out h hars hapath ⟨d0, hd0m, hd0a⟩

/-- K1, loop form: while `a` is on the recursion stack, `b` cannot become
visited without a common cycle being recorded. -/
theorem dfsFold_K1 (deps : List (String × List String)) (a b : String)
    (f : Nat) (node : String) (path : List String)
    (hK : ∀ n p rs vis circ out,
      dfsNode deps f n p rs vis circ = some out →
      (∀ x, x ∈ rs ↔ x ∈ p) → a ∈ rs →
      b ∈ out.2.1 → b ∈ vis ∨ cycleWith a b out.2.2.1) :
    ∀ pending rs vis circ out,
      dfsFold (dfsNode deps f) node path pending rs vis circ = some out →
      (∀ x, x ∈ rs ↔ x ∈ path ++ [node]) → a ∈ rs →
      b ∈ out.2.1 → b ∈ vis ∨ cycleWith a b out.2.2 := by
  intro pending
  induction pending with
  | nil =>
    intro rs vis circ out h hrs hars hbv
    cases Option.some.inj h
    exact Or.inl hbv
  | cons d more ih =>
    intro rs vis circ out h hrs hars hbv
    unfold dfsFold at h
    cases hc : dfsNode deps f (cleanDep d) (path ++ [node]) rs vis circ with
    | none => rw [hc] at h; exact Option.noConfusion h
    | some st =>
      rw [hc] at h
      obtain ⟨rs1, vis1, circ1, b1⟩ := st
      have hrs1 : rs1 = rs := dfsNode_recStack deps f _ _ _ _ _ _ hc
      subst hrs1
      rcases ih rs1 vis1 circ1 out h hrs hars hbv with hbv1 | hcw
      · rcases hK _ _ _ _ _ _ hc hrs hars hbv1 with hbv0 | hcw0
        · exact Or.inl hbv0
        · obtain ⟨-, ext, hext⟩ := dfsFold_mono (dfsNode deps f)
            (fun n p rs' vis' circ' out' hout' =>
              dfsNode_mono deps f n p rs' vis' circ' out' hout')
            more node path rs1 vis1 circ1 out h
          rw [hext]
          exact Or.inr (cycleWith_mono a b circ1 ext hcw0)
      · exact Or.inr hcw

/-- K1, node form. -/
theorem dfsNode_K1 (deps : List (String × List String)) (a b : String)
    (hba : a ∈ cleanDeps deps b) (hne : a ≠ b) :
    ∀ f node path rs vis circ out,
      dfsNode deps f node path rs vis circ = some out →
      (∀ x, x ∈ rs ↔ x ∈ path) → a ∈ rs →
      b ∈ out.2.1 → b ∈ vis ∨ cycleWith a b out.2.2.1 := by
  intro f
  induction f with
  | zero => intro node path rs vis circ out h; exact Option.noConfusion h
  | succ f ih =>
    intro node path rs vis circ out h hrs hars hbv
    unfold dfsNode at h
    by_cases h1 : node ∈ rs
    · rw [if_pos h1] at h
      cases Option.some.inj h
      exact Or.inl hbv
    · rw [if_neg h1] at h
      by_cases h2 : node ∈ vis
      · rw [if_pos h2] at h
        cases Option.some.inj h
        exact Or.inl hbv
      · rw [if_neg h2] at h
        cases hfold : dfsFold (dfsNode deps f) node path
            (lookupDeps deps node) (node :: rs) (vis ++ [node]) circ with
        | none => rw [hfold] at h; exact Option.noConfusion h
        | some st =>
          rw [hfold] at h
          obtain ⟨rs1, vis1, circ1⟩ := st
          cases Option.some.inj h
          by_cases hnb : node = b
          · subst hnb
            right
            obtain ⟨d, hd, hda⟩ : ∃ d ∈ lookupDeps deps node,
                cleanDep d = a := by
              unfold cleanDeps at hba
              obtain ⟨d, hd, hda⟩ := List.mem_map.mp hba
              exact ⟨d, hd, hda⟩
            exact dfsFold_hit deps a node f path
              (lookupDeps deps node) (node :: rs) (vis ++ [node]) circ
              (rs1, vis1, circ1) hfold
              (List.mem_cons_of_mem node hars)
              ((hrs a).mp hars) ⟨d, hd, hda⟩
          · have hwf : ∀ x, x ∈ node :: rs ↔ x ∈ path ++ [node] := by
              intro x
              constructor
              · intro hx
                rcases List.mem_cons.mp hx with rfl | hx2
                · exact List.mem_append.mpr
                    (Or.inr (List.mem_singleton.mpr rfl))
                · exact List.mem_append.mpr (Or.inl ((hrs x).mp hx2))
              · intro hx
                rcases List.mem_append.mp hx with hx2 | hx2
                · exact List.mem_cons.mpr (Or.inr ((hrs x).mpr hx2))
                · rw [List.mem_singleton.mp hx2]
                  exact List.mem_cons_self node rs
            rcases dfsFold_K1 deps a b f node path
              (fun n p rs' vis' circ' out' hout' =>
                ih n p rs' vis' circ' out' hout')
              (lookupDeps deps node) (node :: rs) (vis ++ [node]) circ
              (rs1, vis1, circ1) hfold hwf
              (List.mem_cons_of_mem node hars) hbv with hbv0 | hcw
            · left
              rcases List.mem_append.mp hbv0 with hx | hx
              · exact hx
              · exact absurd (List.mem_singleton.mp hx).symm hnb
            · exact Or.inr hcw

/-- A cycle containing both endpoints is symmetric in them. -/
theorem cycleWith_symm (a b : String) (circ : List (List String))
    (h : cycleWith a b circ) : cycleWith b a circ := by
  obtain ⟨cyc, hm, hma, hmb⟩ := h
  exact ⟨cyc, hm, hmb, hma⟩

/-- K2, loop form: a fold over `a`'s dependencies whose pending list
still contains the edge to an unvisited `b` records a common cycle. -/
theorem dfsFold_K2 (deps : List (String × List String)) (a b : String)
    (hba : a ∈ cleanDeps deps b) (hne : a ≠ b)
    (f : Nat) (path : List String) :
    ∀ pending rs vis circ out,
      dfsFold (dfsNode deps f) a path pending rs vis circ = some out →
      (∀ x, x ∈ rs ↔ x ∈ path ++ [a]) → a ∈ rs → b ∉ vis →
      (∃ d ∈ pending, cleanDep d = b) →
      cycleWith a b out.2.2 := by
  intro pending
  induction pending with
  | nil =>
    intro rs vis circ out h hrs hars hbv hex
    obtain ⟨d, hd, -⟩ := hex
    exact absurd hd (List.not_mem_nil d)
  | cons d more ih =>
    intro rs vis circ out h hrs hars hbv hex
    unfold dfsFold at h
    cases hc : dfsNode deps f (cleanDep d) (path ++ [a]) rs vis circ with
    | none => rw [hc] at h; exact Option.noConfusion h
    | some st =>
      rw [hc] at h
      obtain ⟨rs1, vis1, circ1, b1⟩ := st
      have hrs1 : rs1 = rs := dfsNode_recStack deps f _ _ _ _ _ _ hc
      subst hrs1
      have hrest : ∀ circ2, cycleWith a b circ2 →
          circ2 = circ1 → cycleWith a b out.2.2 := by
        intro circ2 hcw heq
        subst heq
        obtain ⟨-, ext, hext⟩ := dfsFold_mono (dfsNode deps f)
          (fun n p rs' vis' circ' out' hout' =>
            dfsNode_mono deps f n p rs' vis' circ' out' hout')
          more a path rs1 vis1 circ2 out h
        rw [hext]
        exact cycleWith_mono a b circ2 ext hcw
      by_cases hdb : cleanDep d = b
      · -- the edge a -> b is taken here
        rw [hdb] at hc
        obtain ⟨f', rfl⟩ : ∃ f', f = f' + 1 := by
          cases f with
          | zero => exact Option.noConfusion hc
          | succ f' => exact ⟨f', rfl⟩
        unfold dfsNode at hc
        by_cases hb1 : b ∈ rs1
        · -- b already on the stack: the cycle slice through b contains a
          rw [if_pos hb1] at hc
          have hinj := Option.some.inj hc
          have hcirc1 : circ1 = circ ++
              [(path ++ [a]).drop ((path ++ [a]).indexOf b) ++ [b]] :=
            (congrArg (fun st => st.2.2.1) hinj).symm
          have hbpath : b ∈ path := by
            rcases List.mem_append.mp ((hrs b).mp hb1) with hx | hx
            · exact hx
            · exact absurd (List.mem_singleton.mp hx) hne.symm
          obtain ⟨hmb, hma⟩ := cycle_slice_contains b a path hbpath
          refine hrest circ1 ?_ rfl
          rw [hcirc1]
          exact ⟨_, List.mem_append.mpr
            (Or.inr (List.mem_singleton.mpr rfl)), hma, hmb⟩
        · rw [if_neg hb1] at hc
          rw [if_neg hbv] at hc
          cases hfold : dfsFold (dfsNode deps f') b (path ++ [a])
              (lookupDeps deps b) (b :: rs1) (vis ++ [b]) circ with
          | none => rw [hfold] at hc; exact Option.noConfusion hc
          | some st2 =>
            rw [hfold] at hc
            obtain ⟨rs2, vis2, circ2⟩ := st2
            have hcirc1 : circ1 = circ2 :=
              (congrArg (fun st => st.2.2.1) (Option.some.inj hc)).symm
            obtain ⟨d0, hd0, hd0a⟩ : ∃ d0 ∈ lookupDeps deps b,
                cleanDep d0 = a := by
              unfold cleanDeps at hba
              obtain ⟨d0, hd0, hd0a⟩ := List.mem_map.mp hba
              exact ⟨d0, hd0, hd0a⟩
            have hcw : cycleWith a b circ2 :=
              dfsFold_hit deps a b f' (path ++ [a])
                (lookupDeps deps b) (b :: rs1) (vis ++ [b]) circ
                (rs2, vis2, circ2) hfold
                (List.mem_cons_of_mem b hars)
                (List.mem_append.mpr (Or.inr (List.mem_singleton.mpr rfl)))
                ⟨d0, hd0, hd0a⟩
            exact hrest circ1 (hcirc1 ▸ hcw) rfl
      · -- not yet the b edge: either b was just visited with a cycle, or
        -- b remains unvisited and the edge is further down the list
        by_cases hbv1 : b ∈ vis1
        · rcases dfsNode_K1 deps a b hba hne f (cleanDep d) (path ++ [a])
            rs1 vis circ (rs1, vis1, circ1, b1) hc
            (fun x => hrs x) hars hbv1 with hbv0 | hcw
          · exact absurd hbv0 hbv
          · exact hrest circ1 hcw rfl
        · obtain ⟨d0, hd0, hd0b⟩ := hex
          rcases List.mem_cons.mp hd0 with rfl | hd0m
          · exact absurd hd0b hdb
          · exact ih rs1 vis1 circ1 out h hrs hars hbv1 ⟨d0, hd0m, hd0b⟩

/-- K2, node form: visiting `a` fresh, with `b` unvisited and mutual
edges between `a` and `b`, records a common cycle. -/
theorem dfsNode_K2 (deps : List (String × List String)) (a b : String)
    (hab : b ∈ cleanDeps deps a) (hba : a ∈ cleanDeps deps b)
    (hne : a ≠ b) :
    ∀ f path rs vis circ out,
      dfsNode deps f a path rs vis circ = some out →
      (∀ x, x ∈ rs ↔ x ∈ path) → a ∉ rs → a ∉ vis → b ∉ vis →
      cycleWith a b out.2.2.1 := by
  intro f path rs vis circ out h hrs hars hav hbv
  obtain ⟨f', rfl⟩ : ∃ f', f = f' + 1 := by
    cases f with
    | zero => exact Option.noConfusion h
    | succ f' => exact ⟨f', rfl⟩
  unfold dfsNode at h
  rw [if_neg hars, if_neg hav] at h
  cases hfold : dfsFold (dfsNode deps f') a path
      (lookupDeps deps a) (a :: rs) (vis ++ [a]) circ with
  | none => rw [hfold] at h; exact Option.noConfusion h
  | some st =>
    rw [hfold] at h
    obtain ⟨rs1, vis1, circ1⟩ := st
    have hout : out.2.2.1 = circ1 :=
      congrArg (fun st => st.2.2.1) (Option.some.inj h).symm
    obtain ⟨d, hd, hdb⟩ : ∃ d ∈ lookupDeps deps a,
        cleanDep d = b := by
      unfold cleanDeps at hab
      obtain ⟨d, hd, hdb⟩ := List.mem_map.mp hab
      exact ⟨d, hd, hdb⟩
    have hwf : ∀ x, x ∈ a :: rs ↔ x ∈ path ++ [a] := by
      intro x
      constructor
      · intro hx
        rcases List.mem_cons.mp hx with rfl | hx2
        · exact List.mem_append.mpr (Or.inr (List.mem_singleton.mpr rfl))
        · exact List.mem_append.mpr (Or.inl ((hrs x).mp hx2))
      · intro hx
        rcases List.mem_append.mp hx with hx2 | hx2
        · exact List.mem_cons.mpr (Or.inr ((hrs x).mpr hx2))
        · rw [List.mem_singleton.mp hx2]
          exact List.mem_cons_self a rs
    have hbv1 : b ∉ vis ++ [a] := by
      intro hx
      rcases List.mem_append.mp hx with hx2 | hx2
      · exact hbv hx2
      · exact hne (List.mem_singleton.mp hx2).symm
    rw [hout]
    exact dfsFold_K2 deps a b hba hne f' path
      (lookupDeps deps a) (a :: rs) (vis ++ [a]) circ
      (rs1, vis1, circ1) hfold hwf
      (List.mem_cons_self a rs) hbv1 ⟨d, hd, hdb⟩

/-- K4, loop form: a DFS loop started with both `a` and `b` untouched
either records a common cycle or leaves both untouched. -/
theorem dfsFold_K4 (deps : List (String × List String)) (a b : String)
    (f : Nat) (node : String) (path : List String)
    (hK : ∀ n p rs vis circ out,
      dfsNode deps f n p rs vis circ = some out →
      (∀ x, x ∈ rs ↔ x ∈ p) → a ∉ rs → b ∉ rs → a ∉ vis → b ∉ vis →
      cycleWith a b out.2.2.1 ∨ (a ∉ out.2.1 ∧ b ∉ out.2.1)) :
    ∀ pending rs vis circ out,
      dfsFold (dfsNode deps f) node path pending rs vis circ = some out →
      (∀ x, x ∈ rs ↔ x ∈ path ++ [node]) →
      a ∉ rs → b ∉ rs → a ∉ vis → b ∉ vis →
      cycleWith a b out.2.2 ∨ (a ∉ out.2.1 ∧ b ∉ out.2.1) := by
  intro pending
  induction pending with
  | nil =>
    intro rs vis circ out h hrs hars hbrs hav hbv
    cases Option.some.inj h
    exact Or.inr ⟨hav, hbv⟩
  | cons d more ih =>
    intro rs vis circ out h hrs hars hbrs hav hbv
    unfold dfsFold at h
    cases hc : dfsNode deps f (cleanDep d) (path ++ [node]) rs vis circ with
    | none => rw [hc] at h; exact Option.noConfusion h
    | some st =>
      rw [hc] at h
      obtain ⟨rs1, vis1, circ1, b1⟩ := st
      have hrs1 : rs1 = rs := dfsNode_recStack deps f _ _ _ _ _ _ hc
      subst hrs1
      rcases hK _ _ _ _ _ _ hc hrs hars hbrs hav hbv with hcw | ⟨hav1, hbv1⟩
      · obtain ⟨-, ext, hext⟩ := dfsFold_mono (dfsNode deps f)
          (fun n p rs' vis' circ' out' hout' =>
            dfsNode_mono deps f n p rs' vis' circ' out' hout')
          more node path rs1 vis1 circ1 out h
        rw [hext]
        exact Or.inl (cycleWith_mono a b circ1 ext hcw)
      · exact ih rs1 vis1 circ1 out h hrs hars hbrs hav1 hbv1

/-- K4, node form: visiting any node with both `a` and `b` untouched and
mutual edges between them either records a common cycle or leaves both
untouched. -/
theorem dfsNode_K4 (deps : List (String × List String)) (a b : String)
    (hab : b ∈ cleanDeps deps a) (hba : a ∈ cleanDeps deps b)
    (hne : a ≠ b) :
    ∀ f node path rs vis circ out,
      dfsNode deps f node path rs vis circ = some out →
      (∀ x, x ∈ rs ↔ x ∈ path) →
      a ∉ rs → b ∉ rs → a ∉ vis → b ∉ vis →
      cycleWith a b out.2.2.1 ∨ (a ∉ out.2.1 ∧ b ∉ out.2.1) := by
  intro f
  induction f with
  | zero => intro node path rs vis circ out h; exact Option.noConfusion h
  | succ f ih =>
    intro node path rs vis circ out h hrs hars hbrs hav hbv
    by_cases hna : node = a
    · subst hna
      exact Or.inl (dfsNode_K2 deps node b hab hba hne (f + 1)
        path rs vis circ out h hrs hars hav hbv)
    · by_cases hnb : node = b
      · subst hnb
        exact Or.inl (cycleWith_symm node a out.2.2.1
          (dfsNode_K2 deps node a hba hab hne.symm (f + 1)
            path rs vis circ out h hrs hbrs hbv hav))
      · unfold dfsNode at h
        by_cases h1 : node ∈ rs
        · rw [if_pos h1] at h
          cases Option.some.inj h
          exact Or.inr ⟨hav, hbv⟩
        · rw [if_neg h1] at h
          by_cases h2 : node ∈ vis
          · rw [if_pos h2] at h
            cases Option.some.inj h
            exact Or.inr ⟨hav, hbv⟩
          · rw [if_neg h2] at h
            cases hfold : dfsFold (dfsNode deps f) node path
                (lookupDeps deps node) (node :: rs) (vis ++ [node]) circ with
            | none => rw [hfold] at h; exact Option.noConfusion h
            | some st =>
              rw [hfold] at h
              obtain ⟨rs1, vis1, circ1⟩ := st
              have hwf : ∀ x, x ∈ node :: rs ↔ x ∈ path ++ [node] := by
                intro x
                constructor
                · intro hx
                  rcases List.mem_cons.mp hx with rfl | hx2
                  · exact List.mem_append.mpr
                      (Or.inr (List.mem_singleton.mpr rfl))
                  · exact List.mem_append.mpr (Or.inl ((hrs x).mp hx2))
                · intro hx
                  rcases List.mem_append.mp hx with hx2 | hx2
                  · exact List.mem_cons.mpr (Or.inr ((hrs x).mpr hx2))
                  · rw [List.mem_singleton.mp hx2]
                    exact List.mem_cons_self node rs
              have hars1 : a ∉ node :: rs := by
                intro hx
                rcases List.mem_cons.mp hx with hx2 | hx2
                · exact hna hx2.symm
                · exact hars hx2
              have hbrs1 : b ∉ node :: rs := by
                intro hx
                rcases List.mem_cons.mp hx with hx2 | hx2
                · exact hnb hx2.symm
                · exact hbrs hx2
              have hav1 : a ∉ vis ++ [node] := by
                intro hx
                rcases List.mem_append.mp hx with hx2 | hx2
                · exact hav hx2
                · exact hna (List.mem_singleton.mp hx2).symm
              have hbv1 : b ∉ vis ++ [node] := by
                intro hx
                rcases List.mem_append.mp hx with hx2 | hx2
                · exact hbv hx2
                · exact hnb (List.mem_singleton.mp hx2).symm
              have hres := dfsFold_K4 deps a b f node path
                (fun n p rs' vis' circ' out' hout' =>
                  ih n p rs' vis' circ' out' hout')
                (lookupDeps deps node) (node :: rs) (vis ++ [node]) circ
                (rs1, vis1, circ1) hfold hwf hars1 hbrs1 hav1 hbv1
              have hout1 : out.2.2.1 = circ1 :=
                congrArg (fun st => st.2.2.1) (Option.some.inj h).symm
              have hout2 : out.2.1 = vis1 :=
                congrArg (fun st => st.2.1) (Option.some.inj h).symm
              rw [hout1, hout2]
              exact hres

/-- The driver loop only ever appends to the circular list. -/
theorem detectDriver_mono (deps : List (String × List String))
    (fuel : Nat) :
    ∀ keys rs vis circ out,
      detectDriver deps fuel keys (rs, vis, circ) = some out →
      ∃ ext, out.2.2 = circ ++ ext := by
  intro keys
  induction keys with
  | nil =>
    intro rs vis circ out h
    cases Option.some.inj h
    exact ⟨[], (List.append_nil circ).symm⟩
  | cons k ks ih =>
    intro rs vis circ out h
    unfold detectDriver at h
    cases hc : dfsNode deps fuel k [] rs vis circ with
    | none => rw [hc] at h; exact Option.noConfusion h
    | some st =>
      rw [hc] at h
      obtain ⟨rs1, vis1, circ1, b1⟩ := st
      obtain ⟨-, ext1, hext1⟩ :=
        dfsNode_mono deps fuel k [] rs vis circ (rs1, vis1, circ1, b1) hc
      obtain ⟨ext2, hext2⟩ := ih rs1 vis1 circ1 out h
      have hc1 : circ1 = circ ++ ext1 := hext1
      exact ⟨ext1 ++ ext2, by
        rw [hext2, hc1, List.append_assoc]⟩

/-- Driver invariant: once `a` with mutual edges to `b` is reached (or a
cycle is already recorded), a common cycle is in the final output. -/
theorem detectDriver_cycle (deps : List (String × List String))
    (a b : String)
    (hab : b ∈ cleanDeps deps a) (hba : a ∈ cleanDeps deps b)
    (hne : a ≠ b) (fuel : Nat) :
    ∀ keys vis circ out,
      detectDriver deps fuel keys ([], vis, circ) = some out →
      a ∈ keys ∨ cycleWith a b circ →
      cycleWith a b circ ∨ (a ∉ vis ∧ b ∉ vis) →
      cycleWith a b out.2.2 := by
  intro keys
  induction keys with
  | nil =>
    intro vis circ out h hmem hinv
    cases Option.some.inj h
    rcases hmem with hmem | hcw
    · exact absurd hmem (List.not_mem_nil a)
    · exact hcw
  | cons k ks ih =>
    intro vis circ out h hmem hinv
    unfold detectDriver at h
    cases hc : dfsNode deps fuel k [] [] vis circ with
    | none => rw [hc] at h; exact Option.noConfusion h
    | some st =>
      rw [hc] at h
      obtain ⟨rs1, vis1, circ1, b1⟩ := st
      have hrs1 : rs1 = [] := dfsNode_recStack deps fuel _ _ _ _ _ _ hc
      subst hrs1
      have hcontinue : cycleWith a b circ1 ∨ (a ∉ vis1 ∧ b ∉ vis1) →
          a ∈ ks ∨ cycleWith a b circ1 → cycleWith a b out.2.2 :=
        fun hinv1 hmem1 => ih vis1 circ1 out h hmem1 hinv1
      have hlift : cycleWith a b circ1 → cycleWith a b out.2.2 := by
        intro hcw
        obtain ⟨ext, hext⟩ := detectDriver_mono deps fuel ks [] vis1 circ1 out h
        rw [hext]
        exact cycleWith_mono a b circ1 ext hcw
      rcases hinv with hcw | ⟨hav, hbv⟩
      · obtain ⟨-, ext1, hext1⟩ :=
          dfsNode_mono deps fuel k [] [] vis circ ([], vis1, circ1, b1) hc
        have hc1 : circ1 = circ ++ ext1 := hext1
        exact hlift (by rw [hc1]; exact cycleWith_mono a b circ ext1 hcw)
      · have hwf : ∀ x : String, x ∈ ([] : List String) ↔
            x ∈ ([] : List String) := fun x => Iff.rfl
        by_cases hka : k = a
        · subst hka
          exact hlift (dfsNode_K2 deps k b hab hba hne fuel [] [] vis circ
            ([], vis1, circ1, b1) hc hwf (List.not_mem_nil k) hav hbv)
        · by_cases hkb : k = b
          · subst hkb
            exact hlift (cycleWith_symm k a circ1
              (dfsNode_K2 deps k a hba hab hne.symm fuel [] [] vis circ
                ([], vis1, circ1, b1) hc hwf (List.not_mem_nil k) hbv hav))
          · rcases dfsNode_K4 deps a b hab hba hne fuel k [] [] vis circ
              ([], vis1, circ1, b1) hc hwf
              (List.not_mem_nil a) (List.not_mem_nil b) hav hbv with
              hcw | ⟨hav1, hbv1⟩
            · exact hlift hcw
            · rcases hmem with hmem | hcw0
              · have hmem1 : a ∈ ks := by
                  rcases List.mem_cons.mp hmem with rfl | hx
                  · exact absurd rfl hka
                  · exact hx
                exact hcontinue (Or.inr ⟨hav1, hbv1⟩) (Or.inl hmem1)
              · obtain ⟨-, ext1, hext1⟩ :=
                  dfsNode_mono deps fuel k [] [] vis circ
                    ([], vis1, circ1, b1) hc
                have hc1 : circ1 = circ ++ ext1 := hext1
                exact hlift (by
                  rw [hc1]; exact cycleWith_mono a b circ ext1 hcw0)

/-- C7: `_detect_circular_deps` detects mutual cycles.  If two distinct
components `a` and `b` each list the other among their cleaned
dependencies, the traversal terminates and its circular-dependency list
contains a cycle featuring both components. -/
theorem C7_mutual_cycle_detected (deps : List (String × List String))
    (a b : String)
    (hab : b ∈ cleanDeps deps a) (hba : a ∈ cleanDeps deps b)
    (hne : a ≠ b) :
    ∃ circ, detect_circular_deps deps = some circ ∧
      ∃ cyc ∈ circ, a ∈ cyc ∧ b ∈ cyc := by
  have ha_key : a ∈ deps.map Prod.fst := by
    unfold cleanDeps lookupDeps at hab
    cases hfind : deps.find? (fun p => p.1 = a) with
    | none =>
      rw [hfind] at hab
      simp at hab
    | some p =>
      have hp : p ∈ deps := List.mem_of_find?_eq_some hfind
      have hpk : p.1 = a := by
        have := List.find?_some hfind
        simpa using this
      rw [← hpk]
      exact List.mem_map_of_mem Prod.fst hp
  have hterm := detectDriver_isSome deps (deps.map Prod.fst) [] []
    (fun k hk => key_mem_universe deps k hk)
  cases hdrv : detectDriver deps (depFuel deps) (deps.map Prod.fst)
      ([], [], []) with
  | none => rw [hdrv] at hterm; exact Bool.noConfusion hterm
  | some out =>
    have hcw : cycleWith a b out.2.2 :=
      detectDriver_cycle deps a b hab hba hne (depFuel deps)
        (deps.map Prod.fst) [] [] out hdrv (Or.inl ha_key)
        (Or.inr ⟨List.not_mem_nil a, List.not_mem_nil b⟩)
    refine ⟨out.2.2, ?_, hcw⟩
    unfold detect_circular_deps
    rw [hdrv]
    rfl

/-- Concrete run: two components depending on each other (one through a
`(private)` requirement suffix) terminate and yield a recorded cycle
containing both. -/
theorem C7_witness :
    let deps := [("a", ["b"]), ("b", ["a (private)"])]
    ("b" ∈ cleanDeps deps "a" ∧ "a" ∈ cleanDeps deps "b" ∧
      "a" ≠ "b") ∧
    (∃ circ, detect_circular_deps deps = some circ ∧
      ∃ cyc ∈ circ, "a" ∈ cyc ∧ "b" ∈ cyc) ∧
    detect_circular_deps deps = some [["a", "b", "a"]] := by
  refine ⟨⟨by decide, by decide, by decide⟩, ?_, by decide⟩
  exact C7_mutual_cycle_detected [("a", ["b"]), ("b", ["a (private)"])]
    "a" "b" (by decide) (by decide) (by decide)

end EspMcp
